import Mathlib

/-!
Verification of the `ingestion` repository against its specification.

Shallow embedding conventions:
* Python `str` values are modelled as `List Char` (`Str` below); string
  operations (`strip`, `lower`, `split`, slicing, `in`) are modelled
  character-by-character after CPython semantics.
* A Python value read from `os.environ` / a dict is `Option Str`
  (`none` = key absent / `None`).
* Functions that can `raise` return `Except Str _`.
* JSON files that the code itself wrote and re-reads are modelled by their
  parsed contents (a list of rows): `json.loads (json.dumps x) == x`, so a
  round trip through the serialized file is the identity on rows, and two
  row lists are byte-identical as files iff they are equal as lists.
* `hashlib.sha256` and floating-point `math.sqrt`-based cosine scoring are
  external library calls; the functions that use them take them as explicit
  parameters, and no theorem below depends on their values.
-/

/-- Python `str` modelled as a list of characters. -/
abbrev Str := List Char

/-- Model of Python's whitespace test used by `str.strip`/`str.split`/`\s`. -/
def isPySpace (c : Char) : Bool := c.isWhitespace

/-- Drop trailing characters satisfying `p` (helper for `str.strip`). -/
def dropTrail (p : Char → Bool) (l : Str) : Str := (l.reverse.dropWhile p).reverse

/-- Python `s.strip()`: remove leading and trailing whitespace. -/
def pyStrip (l : Str) : Str := dropTrail isPySpace (l.dropWhile isPySpace)

/-- Python `s.lower()` (ASCII-faithful model). -/
def pyLower (l : Str) : Str := l.map Char.toLower

theorem length_dropWhileLe (p : Char → Bool) (l : Str) : (l.dropWhile p).length ≤ l.length :=
  (List.dropWhile_suffix p).sublist.length_le

theorem dropTrail_length_le (p : Char → Bool) (l : Str) : (dropTrail p l).length ≤ l.length := by
  unfold dropTrail
  calc (l.reverse.dropWhile p).reverse.length = (l.reverse.dropWhile p).length := by
        simp
    _ ≤ l.reverse.length := length_dropWhileLe _ _
    _ = l.length := by simp

theorem pyStrip_length_le (l : Str) : (pyStrip l).length ≤ l.length := by
  unfold pyStrip
  exact le_trans (dropTrail_length_le _ _) (length_dropWhileLe _ _)

/-! ## `env.py`

`get_ingestion_embed_provider` reads `OLLAMA_EMBED_MODEL`; the environment
variable is passed in explicitly (`none` = unset). -/

/-- Model of `os.getenv(name) or ""`: `None` and the empty string both
collapse to the empty string. -/
def envStr : Option Str → Str
  | none => []
  | some s => s

/-- `env.get_ingestion_embed_provider`:
`model = (os.getenv("OLLAMA_EMBED_MODEL") or "").strip().lower()`;
returns `"deterministic"` if `model == "deterministic"` else `"ollama"`. -/
def get_ingestion_embed_provider (ollamaEmbedModel : Option Str) : Str :=
  let model := pyLower (pyStrip (envStr ollamaEmbedModel))
  if model = "deterministic".toList then "deterministic".toList else "ollama".toList

/-- C1, counterexample: with `OLLAMA_EMBED_MODEL` unset the code selects
`"ollama"`, not `"deterministic"` as the claim states. -/
theorem C1_counterexample :
    get_ingestion_embed_provider none = "ollama".toList ∧
      "ollama".toList ≠ "deterministic".toList := by
  constructor
  · rfl
  · decide

/-- C1 (amended): the ingestion embedding provider is `"deterministic"` iff
the stripped, lowercased value of `OLLAMA_EMBED_MODEL` is the literal
`"deterministic"`, and is `"ollama"` otherwise — in particular when the
variable is unset or empty. -/
theorem C1_ingestion_provider_amended (m : Option Str) :
    (get_ingestion_embed_provider m = "deterministic".toList ↔
      pyLower (pyStrip (envStr m)) = "deterministic".toList)
    ∧ get_ingestion_embed_provider none = "ollama".toList
    ∧ get_ingestion_embed_provider (some []) = "ollama".toList := by
  refine ⟨?_, rfl, rfl⟩
  unfold get_ingestion_embed_provider
  by_cases h : pyLower (pyStrip (envStr m)) = "deterministic".toList
  · simp [h]
  · simp only [h, if_neg h, iff_false]
    intro hc
    exact absurd hc (by decide)

/-- Witness for C1's amended theorem at a concrete environment value. -/
theorem C1_ingestion_provider_amended_witness :
    get_ingestion_embed_provider (some "mxbai-embed-large".toList) =
      "deterministic".toList ↔
      pyLower (pyStrip (envStr (some "mxbai-embed-large".toList))) =
        "deterministic".toList :=
  (C1_ingestion_provider_amended (some "mxbai-embed-large".toList)).1

/-! ## `section_classifier.py` -/

/-- State machine for Python `str.split()` (no argument): `acc` holds the
current (reversed) non-whitespace run; whitespace runs separate pieces and
empty pieces are dropped. -/
def pySplitWsGo : Str → Str → List Str
  | [], acc => if acc = [] then [] else [acc.reverse]
  | c :: rest, acc =>
    if isPySpace c then
      if acc = [] then pySplitWsGo rest [] else acc.reverse :: pySplitWsGo rest []
    else pySplitWsGo rest (c :: acc)

/-- Python `str.split()` (no argument): split on whitespace runs, dropping
empty pieces. -/
def pySplitWs (l : Str) : List Str := pySplitWsGo l []

/-- `section_classifier._normalize`:
`" ".join((s or "").strip().lower().split())`. -/
def pyNormalize (s : Str) : Str :=
  List.intercalate [' '] (pySplitWs (pyLower (pyStrip s)))

/-- Character class `[A-Za-z0-9_-]` of `_WORD_RE`. -/
def isWordChar (c : Char) : Bool := c.isAlpha || c.isDigit || c = '_' || c = '-'

/-- State machine for `_WORD_RE.findall` (non-overlapping, leftmost, greedy
matches of `[A-Za-z][A-Za-z0-9_-]*`): `none` = outside a match, `some w` =
inside a match with reversed characters `w`; a match starts at a letter and
extends greedily through `[A-Za-z0-9_-]`. -/
def findWordsGo : Str → Option Str → List Str
  | [], none => []
  | [], some w => [w.reverse]
  | c :: rest, none =>
    if c.isAlpha then findWordsGo rest (some [c]) else findWordsGo rest none
  | c :: rest, some w =>
    if isWordChar c then findWordsGo rest (some (c :: w))
    else w.reverse :: findWordsGo rest none

/-- `_WORD_RE.findall text`. A character ending a match is not a word
character, hence not a letter, so it cannot itself start a match. -/
def findWords (l : Str) : List Str := findWordsGo l none

/-- Python `needle` is a prefix of `hay` (`str.startswith`). -/
def startsWithStr : Str → Str → Bool
  | _, [] => true
  | [], _ :: _ => false
  | a :: as, b :: bs => a = b && startsWithStr as bs

/-- Python substring test `needle in hay`. -/
def strContains (hay needle : Str) : Bool :=
  match hay with
  | [] => needle.isEmpty
  | _ :: rest => startsWithStr hay needle || strContains rest needle

/-- `_NON_INSTRUCTIONAL_PHRASES` (a Python `set`, modelled in literal order;
theorems below only use membership of the reasons list, which is
iteration-order independent). -/
def nonInstructionalPhrases : List Str :=
  ["table of contents".toList, "toc".toList, "subscribe".toList, "sign in".toList,
   "log in".toList, "login".toList, "cookie policy".toList, "privacy policy".toList,
   "terms of service".toList, "copyright".toList, "all rights reserved".toList,
   "newsletter".toList, "advertisement".toList, "sponsored".toList,
   "share this".toList, "edit this page".toList, "last updated".toList]

/-- `_NON_INSTRUCTIONAL_HINTS` (modelled in literal order). -/
def nonInstructionalHints : List Str :=
  ["next".toList, "previous".toList, "page".toList, "breadcrumbs".toList,
   "cookie".toList, "consent".toList, "tracking".toList, "analytics".toList,
   "github".toList, "twitter".toList, "linkedin".toList]

/-- `_INSTRUCTIONAL_VERBS` (modelled in literal order). -/
def instructionalVerbs : List Str :=
  ["run".toList, "use".toList, "create".toList, "configure".toList,
   "deploy".toList, "install".toList, "set".toList, "enable".toList,
   "disable".toList, "define".toList, "apply".toList, "initialize".toList,
   "init".toList]

/-- A distilled section as consumed by `classify_section` (dict access is
modelled with `Option`; `none` = key absent). -/
structure PySection where
  kind : Option Str
  title : Option Str
  clean_text : Option Str

/-- `section_classifier.Classification` (score as an exact rational: every
adjustment in the source is a multiple of 0.5, exactly representable). -/
structure Classification where
  is_instructional : Bool
  score : ℚ
  reasons : List Str
deriving DecidableEq

/-- Kind bonus: `+3.0` for howto/example/definition, `+1.0` for
note/explanation. -/
def kindStep (kind : Str) : ℚ × List Str :=
  if kind = "howto".toList ∨ kind = "example".toList ∨ kind = "definition".toList then
    (3, ["kind:".toList ++ kind])
  else if kind = "note".toList ∨ kind = "explanation".toList then
    (1, ["kind:".toList ++ kind])
  else (0, [])

/-- The `-6.0` loop over `_NON_INSTRUCTIONAL_PHRASES`. -/
def phraseFold (title text : Str) (st : ℚ × List Str) : ℚ × List Str :=
  nonInstructionalPhrases.foldl (fun st phrase =>
    if strContains title phrase || strContains text phrase then
      (st.1 - 6, st.2 ++ ["non_instr_phrase:".toList ++ phrase])
    else st) st

/-- The `-1.0` loop over `_NON_INSTRUCTIONAL_HINTS`. -/
def hintFold (title text : Str) (st : ℚ × List Str) : ℚ × List Str :=
  nonInstructionalHints.foldl (fun st hint =>
    if strContains title hint || strContains text hint then
      (st.1 - 1, st.2 ++ ["non_instr_hint:".toList ++ hint])
    else st) st

/-- The `-8.0` table-of-contents penalty. -/
def tocStep (title text : Str) (st : ℚ × List Str) : ℚ × List Str :=
  if strContains title "table of contents".toList ||
      startsWithStr text "table of contents".toList then
    (st.1 - 8, st.2 ++ ["toc".toList])
  else st

/-- The instructional-verb bonus `min(2.0, 0.5 * verb_hits)`. -/
def verbStep (words : List Str) (st : ℚ × List Str) : ℚ × List Str :=
  let verbHits := (words.filter (fun w => decide (w ∈ instructionalVerbs))).length
  if verbHits ≠ 0 then
    (st.1 + min 2 ((1 : ℚ)/2 * verbHits),
     st.2 ++ ["verb_hits:".toList ++ (toString verbHits).toList])
  else st

/-- The `-2.0` navigation-like short-word penalty
(`ratio > 0.55 and len(words) >= 12`). `ratio = short / max(1, len(words))`
is modelled as the exact rational `mkRat short (max 1 len)` and `0.55` as
`11/20`: for word counts far below `2^40` the IEEE-double comparison
`short/total > 0.55` agrees with the exact rational comparison, since any
fraction `short/total ≠ 11/20` differs from `0.55` by at least
`1/(20*total)`, far more than the rounding error of either side. -/
def navStep (words : List Str) (st : ℚ × List Str) : ℚ × List Str :=
  if words ≠ [] then
    let short := (words.filter (fun w => decide (w.length ≤ 3))).length
    let ratio : ℚ := mkRat short (max 1 words.length)
    if ratio > mkRat 11 20 ∧ words.length ≥ 12 then
      (st.1 - 2, st.2 ++ ["nav_like_short_word_ratio".toList])
    else st
  else st

/-- The `-1.5` penalty for `len(text) < 40`. -/
def lenStep (text : Str) (st : ℚ × List Str) : ℚ × List Str :=
  if text.length < 40 then (st.1 - (3 : ℚ)/2, st.2 ++ ["too_short".toList]) else st

/-- `section_classifier.classify_section`. -/
def classify_section (sec : PySection) : Classification :=
  let kind := pyNormalize (envStr sec.kind)
  let title := pyNormalize (envStr sec.title)
  let text := pyNormalize (envStr sec.clean_text)
  if text = [] then ⟨false, -10, ["empty_text".toList]⟩
  else
    let words := (findWords text).map pyLower
    let st := lenStep text (navStep words (verbStep words
      (tocStep title text (hintFold title text (phraseFold title text (kindStep kind))))))
    ⟨st.1 ≥ 1/2, st.1, st.2⟩

/-- The final length penalty only appends to the reasons list. -/
theorem lenStep_mem (text : Str) (st : ℚ × List Str) (r : Str) (h : r ∈ st.2) :
    r ∈ (lenStep text st).2 := by
  unfold lenStep
  split
  · exact List.mem_append_left _ h
  · exact h

/-- When the short-word condition of the source holds, `navStep` records
`nav_like_short_word_ratio`. -/
theorem navStep_adds (words : List Str) (st : ℚ × List Str)
    (h12 : 12 ≤ words.length)
    (hr : mkRat ((words.filter (fun w => decide (w.length ≤ 3))).length)
        (max 1 words.length) > mkRat 11 20) :
    "nav_like_short_word_ratio".toList ∈ (navStep words st).2 := by
  have hne : words ≠ [] := by
    intro h
    rw [h] at h12
    simp at h12
  unfold navStep
  rw [if_pos hne]
  dsimp only
  rw [if_pos ⟨hr, h12⟩]
  exact List.mem_append_right _ (List.mem_singleton_self _)

/-- C7, counterexample: a section whose normalized text has 20 word tokens of
which exactly 11 (55%) have length ≤ 3 does NOT receive the −2.0 adjustment:
the source tests `ratio > 0.55` strictly, so the boundary case 55% is
excluded, contradicting the claim's "≥ 55%". -/
theorem C7_counterexample :
    (let words := (findWords (pyNormalize
        ("aa bb cc dd ee ff gg hh ii jj kk word1 word2 word3 word4 word5 word6 word7 word8 word9".toList))).map pyLower
     words.length = 20 ∧
       (words.filter (fun w => decide (w.length ≤ 3))).length = 11) ∧
    "nav_like_short_word_ratio".toList ∉
      (classify_section ⟨none, none, some
        ("aa bb cc dd ee ff gg hh ii jj kk word1 word2 word3 word4 word5 word6 word7 word8 word9".toList)⟩).reasons := by
  decide

/-- C7 (amended): in section classification, for every section whose
normalized text has at least 12 word tokens and in which STRICTLY MORE than
55% of the word tokens have length ≤ 3 characters, the −2.0 adjustment is
applied (recorded as reason `nav_like_short_word_ratio`); at exactly 55% the
adjustment is not applied. -/
theorem C7_short_word_penalty_amended (sec : PySection)
    (h12 : 12 ≤ ((findWords (pyNormalize (envStr sec.clean_text))).map pyLower).length)
    (hr : mkRat ((((findWords (pyNormalize (envStr sec.clean_text))).map pyLower).filter
          (fun w => decide (w.length ≤ 3))).length)
        (max 1 ((findWords (pyNormalize (envStr sec.clean_text))).map pyLower).length)
        > mkRat 11 20) :
    "nav_like_short_word_ratio".toList ∈ (classify_section sec).reasons := by
  have htext : pyNormalize (envStr sec.clean_text) ≠ [] := by
    intro h
    rw [h] at h12
    simp [findWords, findWordsGo] at h12
  unfold classify_section
  dsimp only
  rw [if_neg htext]
  exact lenStep_mem _ _ _ (navStep_adds _ _ h12 hr)

/-- Witness for C7's amended theorem: 12 short words out of 20 (60% > 55%). -/
theorem C7_short_word_penalty_amended_witness :
    "nav_like_short_word_ratio".toList ∈ (classify_section ⟨none, none, some
      ("aa bb cc dd ee ff gg hh ii jj kk ll word1 word2 word3 word4 word5 word6 word7 word8".toList)⟩).reasons :=
  C7_short_word_penalty_amended
    ⟨none, none, some
      ("aa bb cc dd ee ff gg hh ii jj kk ll word1 word2 word3 word4 word5 word6 word7 word8".toList)⟩
    (by decide) (by decide)

/-! ## `chunker.py` -/

/-- Does the just-consumed character (head of the reversed accumulator) match
the lookbehind `(?<=[\.!\?])` of `_SENTENCE_SPLIT_RE`? -/
def headIsSentencePunct : Str → Bool
  | [] => false
  | c :: _ => c = '.' || c = '!' || c = '?'

/-- State machine for `re.split(r"(?<=[\.!\?])\s+", t)`: a separator is a
maximal whitespace run whose first character is immediately preceded by
`.`, `!` or `?`. `acc` holds the current piece reversed; `inSep` is true
while consuming a separator run (a run never contains punctuation, so no
separator can start inside another). -/
def sentSplitGo : Str → Str → Bool → List Str
  | [], acc, _ => [acc.reverse]
  | c :: rest, acc, inSep =>
    if inSep then
      if isPySpace c then sentSplitGo rest acc true
      else sentSplitGo rest [c] false
    else if isPySpace c && headIsSentencePunct acc then
      acc.reverse :: sentSplitGo rest [] true
    else sentSplitGo rest (c :: acc) false

/-- `_SENTENCE_SPLIT_RE.split t`. -/
def sentenceSplit (l : Str) : List Str := sentSplitGo l [] false

/-- Consecutive slices `t[i : i + m]` for `i in range(0, len t, m)`, with the
remaining length as structural fuel (`fuel ≥ l.length` always holds at call
sites, and every theorem about slice lengths holds for any fuel). -/
def pySlicesGo (m : Nat) : Nat → Str → List Str
  | _, [] => []
  | 0, _ :: _ => []
  | fuel+1, c :: rest => (c :: rest.take (m-1)) :: pySlicesGo m fuel (rest.drop (m-1))

/-- Python `[t[i:i+m] for i in range(0, len(t), m)]` (the guard `m = 0` cannot
arise under the claims' `max_chars ≥ 1`; Python would raise there). -/
def pySlices (m : Nat) (l : Str) : List Str :=
  if m = 0 then [] else pySlicesGo m l.length l

/-- `chunker._split_long_paragraph`. -/
def splitLongParagraph (text : Str) (maxChars : Nat) : List Str :=
  let t := pyStrip text
  if t.length ≤ maxChars then (if t = [] then [] else [t])
  else
    let sentences := ((sentenceSplit t).map pyStrip).filter (fun s => decide (s ≠ []))
    if sentences.length ≤ 1 then
      ((pySlices maxChars t).map pyStrip).filter (fun p => decide (p ≠ []))
    else
      let step := fun (st : List Str × List Str × Nat) (s : Str) =>
        let add := (if st.2.1 ≠ [] then [' '] else []) ++ s
        if st.2.1 ≠ [] ∧ st.2.2 + add.length > maxChars then
          (st.1 ++ [pyStrip st.2.1.flatten], [s], s.length)
        else
          (st.1, st.2.1 ++ [add], st.2.2 + add.length)
      let fin := sentences.foldl step ([], [], 0)
      let parts := if fin.2.1 ≠ [] then fin.1 ++ [pyStrip fin.2.1.flatten] else fin.1
      (parts.map (fun p =>
        if p.length ≤ maxChars then [p]
        else ((pySlices maxChars p).map pyStrip).filter (fun q => decide (q ≠ [])))).flatten

/-- `"\n\n".join(cur)`. -/
def joinNN : List Str → Str
  | [] => []
  | [x] => x
  | x :: y :: rest => x ++ '\n' :: '\n' :: joinNN (y :: rest)

/-- The `body` field of a canonical learning object: a JSON array of
paragraphs, a scalar, or absent/null. -/
inductive PyBody where
  | arr (items : List Str)
  | scalar (s : Str)
  | null

/-- The fields of a `CanonicalLearningObject` read by `chunk_canonical_object`
(dict access modelled with `Option`). -/
structure CLO where
  id : Str
  body : PyBody
  concept_id : Option Str
  level : Option Str
  graph_id : Option Str
  graph_version : Option Str
  dataset_version : Option Str
  index_version : Option Str

/-- A chunk as emitted by `chunk_canonical_object` (chunk schema). -/
structure Chunk where
  chunk_id : Str
  domain : Str
  release_id : Str
  text : Str
  concept_id : Option Str
  level : Option Str
  graph_id : Option Str
  graph_version : Option Str
  dataset_version : Option Str
  index_version : Option Str

/-- `chunker._opt_str_field`: the stripped value when it is a non-empty
string, else `None`. -/
def optStrField (v : Option Str) : Option Str :=
  match v with
  | some s => if pyStrip s ≠ [] then some (pyStrip s) else none
  | none => none

/-- `chunker._chunk_id`; `hashlib.sha256` is an external library call and is
passed in as `sha256Hex` (no theorem depends on its values). -/
def chunkIdOf (sha256Hex : Str → Str) (domain release cloId : Str) (i : Nat) (text : Str) : Str :=
  "chk_".toList ++
    (sha256Hex (domain ++ '|' :: release ++ '|' :: cloId ++ '|' ::
      (toString i).toList ++ '|' :: text)).take 24

/-- The metadata closed over by the nested `flush()` of
`chunk_canonical_object`. -/
structure ChunkMeta where
  domain : Str
  release_id : Str
  cloId : Str
  concept_id : Option Str
  level : Option Str
  graph_id : Option Str
  graph_version : Option Str
  dataset_version : Option Str
  index_version : Option Str

/-- The mutable state of the chunk-packing loop (`chunks`, `cur`, `cur_len`,
`chunk_index`). -/
structure ChunkState where
  chunks : List Chunk
  cur : List Str
  curLen : Nat
  chunkIndex : Nat

/-- The nested `flush()` of `chunk_canonical_object`. -/
def flushChunks (sha : Str → Str) (m : ChunkMeta) (st : ChunkState) : ChunkState :=
  if st.cur = [] then st
  else
    let text := pyStrip (joinNN st.cur)
    if text = [] then { st with cur := [], curLen := 0 }
    else
      { chunks := st.chunks ++
          [⟨chunkIdOf sha m.domain m.release_id m.cloId st.chunkIndex text,
            m.domain, m.release_id, text, m.concept_id, m.level, m.graph_id,
            m.graph_version, m.dataset_version, m.index_version⟩],
        cur := [], curLen := 0, chunkIndex := st.chunkIndex + 1 }

/-- The body of the `for u in units` loop of `chunk_canonical_object`. Note
the source computes `add_len` (including the `+2` joiner allowance) BEFORE a
flush, so after a flush `cur_len` over-counts the joined length by 2; the
invariant proofs below only need `cur_len` to be an over-approximation. -/
def chunkStepU (sha : Str → Str) (m : ChunkMeta) (maxChars : Nat)
    (st : ChunkState) (u : Str) : ChunkState :=
  if u = [] then st
  else
    let addLen := u.length + (if st.cur ≠ [] then 2 else 0)
    let st1 := if st.cur ≠ [] ∧ st.curLen + addLen > maxChars
      then flushChunks sha m st else st
    { st1 with cur := st1.cur ++ [u], curLen := st1.curLen + addLen }

/-- `chunker.chunk_canonical_object`. -/
def chunk_canonical_object (sha : Str → Str) (clo : CLO) (domain release : Str)
    (maxChars : Nat) : List Chunk :=
  let paragraphs := match clo.body with
    | .arr items => (items.map pyStrip).filter (fun p => decide (p ≠ []))
    | .scalar s => if s = [] then [] else [pyStrip s]
    | .null => []
  let units := (paragraphs.map (fun p => splitLongParagraph p maxChars)).flatten
  let meta : ChunkMeta := ⟨domain, release, clo.id,
    optStrField clo.concept_id, optStrField clo.level, optStrField clo.graph_id,
    optStrField clo.graph_version, optStrField clo.dataset_version,
    optStrField clo.index_version⟩
  (flushChunks sha meta (units.foldl (chunkStepU sha meta maxChars) ⟨[], [], 0, 0⟩)).chunks

/-- Every slice `t[i:i+m]` has length at most `m` (for `m ≥ 1`). -/
theorem pySlicesGo_length_le (m : Nat) (hm : 1 ≤ m) :
    ∀ (fuel : Nat) (l : Str), ∀ p ∈ pySlicesGo m fuel l, p.length ≤ m
  | _, [], p, hp => by simp [pySlicesGo] at hp
  | 0, _ :: _, p, hp => by simp [pySlicesGo] at hp
  | fuel+1, c :: rest, p, hp => by
    simp only [pySlicesGo, List.mem_cons] at hp
    rcases hp with h | h
    · subst h
      have : (rest.take (m-1)).length ≤ m - 1 := by
        simp [List.length_take_le (m-1) rest]
      calc (c :: rest.take (m-1)).length = (rest.take (m-1)).length + 1 := by
            simp
        _ ≤ (m - 1) + 1 := by omega
        _ = m := by omega
    · exact pySlicesGo_length_le m hm fuel (rest.drop (m-1)) p h

/-- Every element of `pySlices m l` has length at most `m` (for `m ≥ 1`). -/
theorem pySlices_length_le (m : Nat) (hm : 1 ≤ m) (l : Str) :
    ∀ p ∈ pySlices m l, p.length ≤ m := by
  intro p hp
  unfold pySlices at hp
  rw [if_neg (by omega)] at hp
  exact pySlicesGo_length_le m hm _ l p hp

/-- Every element of a stripped-and-filtered slice list has length ≤ m. -/
theorem sliceStripFilter_length_le (m : Nat) (hm : 1 ≤ m) (l : Str) :
    ∀ p ∈ ((pySlices m l).map pyStrip).filter (fun q => decide (q ≠ [])), p.length ≤ m := by
  intro p hp
  have hp' := List.mem_of_mem_filter hp
  rcases List.mem_map.1 hp' with ⟨q, hq, rfl⟩
  exact le_trans (pyStrip_length_le q) (pySlices_length_le m hm l q hq)

/-- C2 unit bound: every unit emitted by `_split_long_paragraph` has length at
most `max_chars` (the fits-whole branch returns the short paragraph, the
single-sentence branch hard-slices, and the packing branch re-slices any
over-long packed part in its final loop). -/
theorem splitLongParagraph_length_le (t : Str) (m : Nat) (hm : 1 ≤ m) :
    ∀ u ∈ splitLongParagraph t m, u.length ≤ m := by
  intro u hu
  unfold splitLongParagraph at hu
  by_cases h1 : (pyStrip t).length ≤ m
  · rw [if_pos h1] at hu
    by_cases h2 : pyStrip t = []
    · rw [if_pos h2] at hu
      simp at hu
    · rw [if_neg h2] at hu
      rcases List.mem_singleton.1 hu with rfl
      exact h1
  · rw [if_neg h1] at hu
    dsimp only at hu
    by_cases h2 : (((sentenceSplit (pyStrip t)).map pyStrip).filter
        (fun s => decide (s ≠ []))).length ≤ 1
    · rw [if_pos h2] at hu
      exact sliceStripFilter_length_le m hm _ u hu
    · rw [if_neg h2] at hu
      rcases List.mem_flatten.1 hu with ⟨l, hl, hul⟩
      rcases List.mem_map.1 hl with ⟨p, _, rfl⟩
      by_cases h3 : p.length ≤ m
      · rw [if_pos h3] at hul
        rcases List.mem_singleton.1 hul with rfl
        exact h3
      · rw [if_neg h3] at hul
        exact sliceStripFilter_length_le m hm _ u hul

/-- Appending one more piece to a non-empty `"\n\n".join` adds the joiner. -/
theorem joinNN_append_singleton :
    ∀ (l : List Str) (u : Str), l ≠ [] →
      joinNN (l ++ [u]) = joinNN l ++ '\n' :: '\n' :: u
  | [], _, h => absurd rfl h
  | [x], u, _ => by simp [joinNN]
  | x :: y :: rest, u, _ => by
    have ih := joinNN_append_singleton (y :: rest) u (by simp)
    simp only [List.cons_append] at ih ⊢
    simp only [joinNN]
    rw [ih]
    simp

/-- The invariant of the chunk-packing loop: all emitted chunk texts are
within `maxChars`; `cur_len` over-approximates the joined length of `cur`;
and a non-empty `cur` joins to at most `maxChars` characters. -/
def ChunkInv (maxChars : Nat) (st : ChunkState) : Prop :=
  (∀ ch ∈ st.chunks, ch.text.length ≤ maxChars) ∧
  (joinNN st.cur).length ≤ st.curLen ∧
  (st.cur ≠ [] → (joinNN st.cur).length ≤ maxChars)

/-- `flush()` leaves the invariant intact and never emits an over-long text. -/
theorem flushChunks_inv (sha : Str → Str) (m : ChunkMeta) (maxChars : Nat)
    (st : ChunkState) (h : ChunkInv maxChars st) :
    ChunkInv maxChars (flushChunks sha m st) := by
  obtain ⟨hchunks, hlen, hbound⟩ := h
  unfold flushChunks
  by_cases hc : st.cur = []
  · rw [if_pos hc]
    exact ⟨hchunks, hlen, hbound⟩
  · rw [if_neg hc]
    dsimp only
    by_cases ht : pyStrip (joinNN st.cur) = []
    · rw [if_pos ht]
      refine ⟨hchunks, by simp [joinNN], by simp⟩
    · rw [if_neg ht]
      refine ⟨?_, by simp [joinNN], by simp⟩
      intro ch hch
      rcases List.mem_append.1 hch with h | h
      · exact hchunks ch h
      · rcases List.mem_singleton.1 h with rfl
        exact le_trans (pyStrip_length_le _) (hbound hc)

/-- After a `flush()` on a non-empty `cur`, both `cur` and `cur_len` are
reset. -/
theorem flushChunks_reset (sha : Str → Str) (m : ChunkMeta) (st : ChunkState)
    (hc : st.cur ≠ []) :
    (flushChunks sha m st).cur = [] ∧ (flushChunks sha m st).curLen = 0 := by
  unfold flushChunks
  rw [if_neg hc]
  dsimp only
  by_cases ht : pyStrip (joinNN st.cur) = []
  · rw [if_pos ht]
    exact ⟨rfl, rfl⟩
  · rw [if_neg ht]
    exact ⟨rfl, rfl⟩

/-- One step of the `for u in units` loop preserves the invariant, provided
the unit itself fits in `maxChars`. -/
theorem chunkStepU_inv (sha : Str → Str) (m : ChunkMeta) (maxChars : Nat)
    (st : ChunkState) (u : Str) (hu : u.length ≤ maxChars)
    (h : ChunkInv maxChars st) :
    ChunkInv maxChars (chunkStepU sha m maxChars st u) := by
  obtain ⟨hchunks, hlen, hbound⟩ := h
  unfold chunkStepU
  by_cases hue : u = []
  · rw [if_pos hue]
    exact ⟨hchunks, hlen, hbound⟩
  · rw [if_neg hue]
    dsimp only
    by_cases hflush : st.cur ≠ [] ∧ st.curLen + (u.length + (if st.cur ≠ [] then 2 else 0)) > maxChars
    · rw [if_pos hflush]
      obtain ⟨hreset1, hreset2⟩ := flushChunks_reset sha m st hflush.1
      obtain ⟨hch', _, _⟩ := flushChunks_inv sha m maxChars st ⟨hchunks, hlen, hbound⟩
      refine ⟨hch', ?_, ?_⟩
      · rw [hreset1, hreset2]
        simp only [List.nil_append, joinNN]
        omega
      · intro _
        rw [hreset1]
        simpa [joinNN] using hu
    · rw [if_neg hflush]
      by_cases hc : st.cur = []
      · refine ⟨hchunks, ?_, ?_⟩
        · rw [hc]
          simp only [List.nil_append, joinNN]
          omega
        · intro _
          rw [hc]
          simpa [joinNN] using hu
      · have hle : st.curLen + (u.length + (if st.cur ≠ [] then 2 else 0)) ≤ maxChars := by
          rcases Nat.lt_or_ge maxChars (st.curLen + (u.length + (if st.cur ≠ [] then 2 else 0))) with h | h
          · exact absurd ⟨hc, h⟩ hflush
          · exact h
        rw [if_pos hc] at hle ⊢
        have hjoin : (joinNN (st.cur ++ [u])).length = (joinNN st.cur).length + 2 + u.length := by
          rw [joinNN_append_singleton st.cur u hc]
          simp
          omega
        refine ⟨hchunks, ?_, fun _ => ?_⟩
        · dsimp only
          rw [hjoin]
          omega
        · dsimp only
          rw [hjoin]
          omega

/-- The whole packing loop preserves the invariant. -/
theorem chunkFold_inv (sha : Str → Str) (m : ChunkMeta) (maxChars : Nat) :
    ∀ (units : List Str) (st : ChunkState),
      (∀ u ∈ units, u.length ≤ maxChars) → ChunkInv maxChars st →
      ChunkInv maxChars (units.foldl (chunkStepU sha m maxChars) st)
  | [], st, _, h => h
  | u :: rest, st, hu, h => by
    rw [List.foldl_cons]
    exact chunkFold_inv sha m maxChars rest _
      (fun v hv => hu v (List.mem_cons_of_mem u hv))
      (chunkStepU_inv sha m maxChars st u (hu u (List.mem_cons_self u rest)) h)

/-- All chunks produced by folding bounded units and flushing have bounded
text. -/
theorem chunks_all_le (sha : Str → Str) (m : ChunkMeta) (maxChars : Nat)
    (units : List Str) (hunits : ∀ u ∈ units, u.length ≤ maxChars) :
    ∀ ch ∈ (flushChunks sha m
        (units.foldl (chunkStepU sha m maxChars) ⟨[], [], 0, 0⟩)).chunks,
      ch.text.length ≤ maxChars := by
  have hinv0 : ChunkInv maxChars ⟨[], [], 0, 0⟩ :=
    ⟨by simp, by simp [joinNN], by simp⟩
  exact (flushChunks_inv sha m maxChars _
    (chunkFold_inv sha m maxChars units ⟨[], [], 0, 0⟩ hunits hinv0)).1

/-- C2: every chunk emitted by the chunker has text of length at most
`max_chars`, for every canonical learning object and every `max_chars ≥ 1`;
this covers all three splitting paths of `_split_long_paragraph` and the
greedy `"\n\n"` packing of units into chunks. -/
theorem C2_chunk_text_within_max_chars (sha : Str → Str) (clo : CLO)
    (domain release : Str) (maxChars : Nat) (hm : 1 ≤ maxChars) :
    ∀ ch ∈ chunk_canonical_object sha clo domain release maxChars,
      ch.text.length ≤ maxChars := by
  intro ch hch
  unfold chunk_canonical_object at hch
  dsimp only at hch
  refine chunks_all_le sha _ maxChars _ ?_ ch hch
  intro u hu
  rcases List.mem_flatten.1 hu with ⟨l, hl, hul⟩
  rcases List.mem_map.1 hl with ⟨p, _, rfl⟩
  exact splitLongParagraph_length_le p maxChars hm u hul

/-- Witness for C2 at a concrete object (max_chars = 10, with a paragraph
long enough to exercise sentence packing and hard slicing). -/
theorem C2_chunk_text_within_max_chars_witness :
    (1 ≤ 10) ∧
      ∀ ch ∈ chunk_canonical_object (fun _ => "0123456789abcdef0123456789abcdef".toList)
        ⟨"clo1".toList,
         .arr ["Run it. Then stop! A verylongwordwithoutbreaks here.".toList,
               "short".toList],
         some "c1".toList, none, none, none, none, none⟩
        "docs".toList "2024-01-01".toList 10,
        ch.text.length ≤ 10 :=
  ⟨by decide,
   C2_chunk_text_within_max_chars (fun _ => "0123456789abcdef0123456789abcdef".toList)
     ⟨"clo1".toList,
      .arr ["Run it. Then stop! A verylongwordwithoutbreaks here.".toList,
            "short".toList],
      some "c1".toList, none, none, none, none, none⟩
     "docs".toList "2024-01-01".toList 10 (by decide)⟩

/-! ## `vector_store.py` — `LocalJsonlVectorStore.upsert`

The index file is modelled by its parsed rows (see the header); the Python
dict `existing` is modelled as an association list in insertion order, whose
keys are kept unique by construction. -/

/-- A row of `index.jsonl` as written by `upsert` (required fields plus the
optional `_FILTER_KEYS` alignment metadata). -/
structure UpsertRow where
  chunk_id : Str
  domain : Str
  release_id : Str
  text : Str
  embedding_ref : Str
  concept_id : Option Str
  level : Option Str
  graph_id : Option Str
  graph_version : Option Str
  dataset_version : Option Str
  index_version : Option Str
deriving DecidableEq

/-- An input chunk dict as consumed by `upsert` (`none` = key absent). -/
structure PyChunk where
  chunk_id : Option Str
  domain : Option Str
  release_id : Option Str
  text : Option Str
  embedding_ref : Option Str
  concept_id : Option Str
  level : Option Str
  graph_id : Option Str
  graph_version : Option Str
  dataset_version : Option Str
  index_version : Option Str

/-- Python `str(ch.get(k))`: `str(None)` is the literal `"None"`. -/
def pyStr : Option Str → Str
  | none => "None".toList
  | some s => s

/-- Python falsiness of `ch.get(k)` for an optional string
(`not ch.get(k)`). -/
def pyFalsy : Option Str → Bool
  | none => true
  | some s => s.isEmpty

/-- The per-chunk validation sequence of `upsert` (first failing check wins,
mirroring source order). -/
def validateChunk (domain release : Str) (ch : PyChunk) : Option Str :=
  if pyStr ch.domain ≠ domain then some "chunk domain does not match upsert domain".toList
  else if pyStr ch.release_id ≠ release then some "chunk release_id does not match upsert release_id".toList
  else if pyFalsy ch.chunk_id then some "chunk_id is required".toList
  else if pyFalsy ch.text then some "text is required".toList
  else if pyFalsy ch.embedding_ref then some "embedding_ref is required for indexing".toList
  else none

/-- The `for ch in chunks` validation loop: the first error raised, if any. -/
def validateChunks (domain release : Str) : List PyChunk → Option Str
  | [] => none
  | ch :: rest =>
    match validateChunk domain release ch with
    | some e => some e
    | none => validateChunks domain release rest

/-- The row built from a validated chunk (required fields stringified, the
`_FILTER_KEYS` kept when they are non-blank strings and stripped). -/
def rowOfChunk (domain release : Str) (ch : PyChunk) : UpsertRow :=
  ⟨pyStr ch.chunk_id, domain, release, pyStr ch.text, pyStr ch.embedding_ref,
   optStrField ch.concept_id, optStrField ch.level, optStrField ch.graph_id,
   optStrField ch.graph_version, optStrField ch.dataset_version,
   optStrField ch.index_version⟩

/-- `existing[k] = v` on the insertion-ordered dict model: replace in place
when the key is present, else append. -/
def dictInsert (m : List (Str × UpsertRow)) (k : Str) (v : UpsertRow) :
    List (Str × UpsertRow) :=
  if m.any (fun p => decide (p.1 = k)) then
    m.map (fun p => if p.1 = k then (k, v) else p)
  else m ++ [(k, v)]

/-- `existing.get(k)` on the dict model. -/
def dictGet (m : List (Str × UpsertRow)) (k : Str) : Option UpsertRow :=
  (m.find? (fun p => decide (p.1 = k))).map Prod.snd

/-- Reading the existing `index.jsonl` into the dict keyed by `chunk_id`,
skipping rows with an empty id (blank and unparsable lines of the real file
never correspond to a parsed row in this model). -/
def readIndexRows (rows : List UpsertRow) : List (Str × UpsertRow) :=
  rows.foldl (fun m r => if r.chunk_id = [] then m else dictInsert m r.chunk_id r) []

/-- Key order for the deterministic write: `sorted(existing.keys())` followed
by `existing[k]` equals sorting the (uniquely-keyed) pairs by key and taking
the values. -/
def rowLe (a b : Str × UpsertRow) : Prop := a.1 ≤ b.1

instance : DecidableRel rowLe := fun a b => inferInstanceAs (Decidable (a.1 ≤ b.1))

instance : IsTotal (Str × UpsertRow) rowLe := ⟨fun a b => le_total a.1 b.1⟩

instance : IsTrans (Str × UpsertRow) rowLe := ⟨fun _ _ _ => le_trans⟩

/-- The merge loop body of `upsert`:
`existing[str(ch[\"chunk_id\"])] = row`. -/
def upsertStep (domain release : Str) (m : List (Str × UpsertRow)) (ch : PyChunk) :
    List (Str × UpsertRow) :=
  dictInsert m (pyStr ch.chunk_id) (rowOfChunk domain release ch)

/-- `LocalJsonlVectorStore.upsert`: guards, per-chunk validation, merge of the
existing rows with the new rows (overwrite by `chunk_id`), and the
deterministic sorted write. `existing = none` models a missing index file
(it reads as no rows). -/
def upsert (domain release : Str) (existing : Option (List UpsertRow))
    (chunks : List PyChunk) : Except Str (List UpsertRow) :=
  if domain = [] then .error "domain is required".toList
  else if release = [] then .error "release_id is required".toList
  else
    match validateChunks domain release chunks with
    | some e => .error e
    | none =>
      let existingMap := readIndexRows (match existing with
        | none => []
        | some rows => rows)
      let merged := chunks.foldl (upsertStep domain release) existingMap
      .ok ((merged.insertionSort rowLe).map Prod.snd)

/-- The observable file state after calling `upsert`: on success the newly
written rows, on an exception the file is untouched (the validation loop at
lines 144-154 precedes the mkdir/read/write at lines 156-192). -/
def runUpsert (domain release : Str) (fs : Option (List UpsertRow))
    (chunks : List PyChunk) : Option (List UpsertRow) :=
  match upsert domain release fs chunks with
  | .ok out => some out
  | .error _ => fs

/-- Replacing an existing key leaves the key list unchanged. -/
theorem dictInsert_keys_present (m : List (Str × UpsertRow)) (k : Str) (v : UpsertRow)
    (h : m.any (fun p => decide (p.1 = k)) = true) :
    (dictInsert m k v).map Prod.fst = m.map Prod.fst := by
  unfold dictInsert
  rw [if_pos h, List.map_map]
  refine List.map_congr_left ?_
  intro p _
  by_cases hp : p.1 = k
  · simp [hp]
  · simp [hp]

/-- Inserting a fresh key appends it to the key list. -/
theorem dictInsert_keys_absent (m : List (Str × UpsertRow)) (k : Str) (v : UpsertRow)
    (h : ¬ m.any (fun p => decide (p.1 = k)) = true) :
    (dictInsert m k v).map Prod.fst = m.map Prod.fst ++ [k] := by
  unfold dictInsert
  rw [if_neg h]
  simp

/-- Key membership in the dict equals the `any` test used by `dictInsert`. -/
theorem dict_any_iff (m : List (Str × UpsertRow)) (k : Str) :
    m.any (fun p => decide (p.1 = k)) = true ↔ k ∈ m.map Prod.fst := by
  rw [List.any_eq_true]
  constructor
  · rintro ⟨p, hp, hk⟩
    exact List.mem_map.2 ⟨p, hp, (of_decide_eq_true hk).symm ▸ rfl⟩
  · rintro h
    rcases List.mem_map.1 h with ⟨p, hp, rfl⟩
    exact ⟨p, hp, by simp⟩

/-- Lookup after insert: the inserted key maps to the new value, other keys
are unaffected. -/
theorem dictGet_insert (m : List (Str × UpsertRow)) (k k' : Str) (v : UpsertRow) :
    dictGet (dictInsert m k v) k' = if k' = k then some v else dictGet m k' := by
  unfold dictInsert
  by_cases h : m.any (fun p => decide (p.1 = k)) = true
  · rw [if_pos h]
    induction m with
    | nil => simp at h
    | cons p rest ih =>
      simp only [List.any_cons, Bool.or_eq_true] at h
      by_cases hp : p.1 = k
      · by_cases hk : k' = k
        · subst hk
          simp [dictGet, List.find?_cons, hp]
        · have h1 : (decide ((k, v).1 = k')) = false := by
            simp only [decide_eq_false_iff_not]
            exact fun hc => hk hc.symm
          have h2 : (decide (p.1 = k')) = false := by
            simp only [decide_eq_false_iff_not, hp]
            exact fun hc => hk hc.symm
          simp only [List.map_cons, if_pos hp, dictGet, List.find?_cons, h1, h2]
          rw [if_neg hk]
          by_cases hrest : rest.any (fun q => decide (q.1 = k)) = true
          · have := ih hrest
            unfold dictGet at this
            rw [if_neg hk] at this
            exact this
          · have hmap : List.map (fun q => if q.1 = k then (k, v) else q) rest = rest := by
              conv_rhs => rw [← List.map_id rest]
              refine List.map_congr_left ?_
              intro q hq
              rw [if_neg]
              · rfl
              · intro hc
                exact hrest (List.any_eq_true.2 ⟨q, hq, by simp [hc]⟩)
            rw [hmap]
      · have hrest : rest.any (fun q => decide (q.1 = k)) = true := by
          rcases h with h | h
          · exact absurd (of_decide_eq_true h) hp
          · exact h
        simp only [List.map_cons, if_neg hp, dictGet, List.find?_cons]
        by_cases hpk : p.1 = k'
        · have : (decide (p.1 = k')) = true := by simp [hpk]
          rw [this]
          rw [if_neg]
          intro hc
          subst hc
          exact hp hpk
        · have : (decide (p.1 = k')) = false := by simp [hpk]
          rw [this]
          have := ih hrest
          unfold dictGet at this
          exact this
  · rw [if_neg h]
    unfold dictGet
    rw [List.find?_append]
    have hnone : m.find? (fun p => decide (p.1 = k')) = none ∨ k' ≠ k := by
      by_cases hk : k' = k
      · subst hk
        left
        rw [List.find?_eq_none]
        intro p hp
        simp only [decide_eq_true_eq]
        intro hc
        exact h (List.any_eq_true.2 ⟨p, hp, by simp [hc]⟩)
      · right
        exact hk
    by_cases hk : k' = k
    · subst hk
      rcases hnone with hnone | hnone
      · rw [hnone]
        simp [List.find?_cons]
      · exact absurd rfl hnone
    · rw [if_neg hk]
      have hsingle : List.find? (fun p => decide (p.1 = k')) [(k, v)] = none := by
        rw [List.find?_eq_none]
        intro p hp
        rcases List.mem_singleton.1 hp with rfl
        simp only [decide_eq_true_eq]
        exact fun hc => hk hc.symm
      rw [hsingle]
      cases hfind : m.find? (fun p => decide (p.1 = k')) <;> simp [hfind]

/-- A key not in the dict looks up to `none`. -/
theorem dictGet_eq_none (m : List (Str × UpsertRow)) (k : Str)
    (h : k ∉ m.map Prod.fst) : dictGet m k = none := by
  unfold dictGet
  rw [List.find?_eq_none.2]
  · rfl
  · intro p hp
    simp only [decide_eq_true_eq]
    intro hc
    exact h (List.mem_map.2 ⟨p, hp, hc⟩)

/-- A successful lookup produces a member pair. -/
theorem mem_of_dictGet (m : List (Str × UpsertRow)) (k : Str) (v : UpsertRow)
    (h : dictGet m k = some v) : (k, v) ∈ m := by
  unfold dictGet at h
  cases hfind : m.find? (fun p => decide (p.1 = k)) with
  | none => rw [hfind] at h; simp at h
  | some p =>
    rw [hfind] at h
    simp only [Option.map_some'] at h
    have hmem := List.mem_of_find?_eq_some hfind
    have hkey : p.1 = k := of_decide_eq_true (List.find?_some (p := fun (q : Str × UpsertRow) => decide (q.1 = k)) hfind)
    have : p = (k, v) := by
      cases p
      simp only [Option.some.injEq] at h
      simp_all
    rw [← this]
    exact hmem

/-- With unique keys, every member pair is found by lookup. -/
theorem dictGet_of_mem (m : List (Str × UpsertRow)) (k : Str) (v : UpsertRow)
    (hnd : (m.map Prod.fst).Nodup) (hmem : (k, v) ∈ m) : dictGet m k = some v := by
  induction m with
  | nil => simp at hmem
  | cons p rest ih =>
    simp only [List.map_cons, List.nodup_cons] at hnd
    rcases List.mem_cons.1 hmem with heq | htail
    · subst heq
      simp [dictGet, List.find?_cons]
    · have hpk : p.1 ≠ k := by
        intro hc
        exact hnd.1 (hc ▸ List.mem_map.2 ⟨(k, v), htail, rfl⟩)
      unfold dictGet
      rw [List.find?_cons]
      have : (decide (p.1 = k)) = false := by simp [hpk]
      rw [this]
      exact ih hnd.2 htail

/-- Looking up in either of two permuted uniquely-keyed dicts agrees. -/
theorem dictGet_eq_of_perm (m₁ m₂ : List (Str × UpsertRow))
    (hperm : m₁.Perm m₂) (hnd : (m₁.map Prod.fst).Nodup) (k : Str) :
    dictGet m₁ k = dictGet m₂ k := by
  have hnd₂ : (m₂.map Prod.fst).Nodup := ((hperm.map Prod.fst).nodup_iff).1 hnd
  cases h₁ : dictGet m₁ k with
  | some v =>
    exact (dictGet_of_mem m₂ k v hnd₂ (hperm.mem_iff.1 (mem_of_dictGet m₁ k v h₁))).symm
  | none =>
    cases h₂ : dictGet m₂ k with
    | none => rfl
    | some v =>
      have := dictGet_of_mem m₁ k v hnd (hperm.mem_iff.2 (mem_of_dictGet m₂ k v h₂))
      rw [h₁] at this
      exact absurd this (by simp)

/-- The dict invariant maintained by `upsert`: unique keys, each value's
`chunk_id` equal to its key, and no empty key. -/
def GoodMap (m : List (Str × UpsertRow)) : Prop :=
  (m.map Prod.fst).Nodup ∧ (∀ p ∈ m, p.2.chunk_id = p.1) ∧ (∀ p ∈ m, p.1 ≠ [])

/-- `dictInsert` preserves the invariant when the value is keyed by its own
non-empty `chunk_id`. -/
theorem goodMap_insert (m : List (Str × UpsertRow)) (k : Str) (v : UpsertRow)
    (hg : GoodMap m) (hv : v.chunk_id = k) (hk : k ≠ []) :
    GoodMap (dictInsert m k v) := by
  obtain ⟨hnd, hval, hne⟩ := hg
  by_cases h : m.any (fun p => decide (p.1 = k)) = true
  · refine ⟨?_, ?_, ?_⟩
    · rw [dictInsert_keys_present m k v h]
      exact hnd
    · intro p hp
      unfold dictInsert at hp
      rw [if_pos h] at hp
      rcases List.mem_map.1 hp with ⟨q, hq, rfl⟩
      by_cases hqk : q.1 = k
      · simp [hqk, hv]
      · simp only [if_neg hqk]
        exact hval q hq
    · intro p hp
      unfold dictInsert at hp
      rw [if_pos h] at hp
      rcases List.mem_map.1 hp with ⟨q, hq, rfl⟩
      by_cases hqk : q.1 = k
      · simpa [hqk] using hk
      · simp only [if_neg hqk]
        exact hne q hq
  · refine ⟨?_, ?_, ?_⟩
    · rw [dictInsert_keys_absent m k v h]
      rw [List.nodup_append]
      refine ⟨hnd, List.nodup_singleton k, ?_⟩
      intro a ha hb
      rcases List.mem_singleton.1 hb with rfl
      rw [← dict_any_iff] at ha
      exact h ha
    · intro p hp
      unfold dictInsert at hp
      rw [if_neg h] at hp
      rcases List.mem_append.1 hp with hp | hp
      · exact hval p hp
      · rcases List.mem_singleton.1 hp with rfl
        exact hv
    · intro p hp
      unfold dictInsert at hp
      rw [if_neg h] at hp
      rcases List.mem_append.1 hp with hp | hp
      · exact hne p hp
      · rcases List.mem_singleton.1 hp with rfl
        exact hk

/-- Reading any index file yields a well-formed dict. -/
theorem goodMap_readIndexRows (rows : List UpsertRow) : GoodMap (readIndexRows rows) := by
  unfold readIndexRows
  suffices h : ∀ (rs : List UpsertRow) (m : List (Str × UpsertRow)), GoodMap m →
      GoodMap (rs.foldl (fun m r => if r.chunk_id = [] then m else dictInsert m r.chunk_id r) m) by
    exact h rows [] ⟨List.nodup_nil, by simp, by simp⟩
  intro rs
  induction rs with
  | nil => intro m hm; exact hm
  | cons r rest ih =>
    intro m hm
    rw [List.foldl_cons]
    by_cases hr : r.chunk_id = []
    · rw [if_pos hr]
      exact ih m hm
    · rw [if_neg hr]
      exact ih _ (goodMap_insert m r.chunk_id r hm rfl hr)

/-- A non-falsy optional string stringifies to a non-empty string. -/
theorem pyStr_ne_nil_of_not_falsy (v : Option Str) (h : pyFalsy v = false) :
    pyStr v ≠ [] := by
  cases v with
  | none => simp [pyFalsy] at h
  | some s =>
    simp only [pyFalsy, List.isEmpty_iff] at h
    simpa [pyStr] using h

/-- A chunk that passes validation has matching scope and non-falsy required
fields. -/
theorem validateChunk_none (domain release : Str) (ch : PyChunk)
    (h : validateChunk domain release ch = none) :
    pyStr ch.domain = domain ∧ pyStr ch.release_id = release ∧
      pyFalsy ch.chunk_id = false ∧ pyFalsy ch.text = false ∧
      pyFalsy ch.embedding_ref = false := by
  unfold validateChunk at h
  by_cases h1 : pyStr ch.domain ≠ domain
  · rw [if_pos h1] at h; exact absurd h (by simp)
  · rw [if_neg h1] at h
    by_cases h2 : pyStr ch.release_id ≠ release
    · rw [if_pos h2] at h; exact absurd h (by simp)
    · rw [if_neg h2] at h
      by_cases h3 : pyFalsy ch.chunk_id
      · rw [if_pos h3] at h; exact absurd h (by simp)
      · rw [if_neg h3] at h
        by_cases h4 : pyFalsy ch.text
        · rw [if_pos h4] at h; exact absurd h (by simp)
        · rw [if_neg h4] at h
          by_cases h5 : pyFalsy ch.embedding_ref
          · rw [if_pos h5] at h; exact absurd h (by simp)
          · exact ⟨not_not.1 h1, not_not.1 h2, by simpa using h3, by simpa using h4,
              by simpa using h5⟩

/-- If the whole list validates, each chunk validates. -/
theorem validateChunks_none (domain release : Str) :
    ∀ (chunks : List PyChunk), validateChunks domain release chunks = none →
      ∀ ch ∈ chunks, validateChunk domain release ch = none
  | [], _, ch, hch => by simp at hch
  | c :: rest, h, ch, hch => by
    unfold validateChunks at h
    cases hv : validateChunk domain release c with
    | some e => rw [hv] at h; exact absurd h (by simp)
    | none =>
      rw [hv] at h
      rcases List.mem_cons.1 hch with rfl | hmem
      · exact hv
      · exact validateChunks_none domain release rest h ch hmem

/-- If some chunk fails validation, the whole list fails validation. -/
theorem validateChunks_some (domain release : Str) :
    ∀ (chunks : List PyChunk) (ch : PyChunk), ch ∈ chunks →
      validateChunk domain release ch ≠ none →
      validateChunks domain release chunks ≠ none
  | [], ch, hch, _ => by simp at hch
  | c :: rest, ch, hch, hbad => by
    unfold validateChunks
    cases hv : validateChunk domain release c with
    | some e => simp
    | none =>
      rcases List.mem_cons.1 hch with rfl | hmem
      · exact absurd hv hbad
      · exact validateChunks_some domain release rest ch hmem hbad

/-- The merge loop preserves the dict invariant (all merged chunks passed
validation, so their keys are non-empty). -/
theorem goodMap_foldl (domain release : Str) :
    ∀ (chunks : List PyChunk) (m : List (Str × UpsertRow)),
      (∀ ch ∈ chunks, validateChunk domain release ch = none) → GoodMap m →
      GoodMap (chunks.foldl (upsertStep domain release) m)
  | [], m, _, hm => hm
  | c :: rest, m, hv, hm => by
    rw [List.foldl_cons]
    refine goodMap_foldl domain release rest _ (fun ch hch => hv ch (List.mem_cons_of_mem c hch)) ?_
    refine goodMap_insert m _ _ hm rfl ?_
    exact pyStr_ne_nil_of_not_falsy _
      (validateChunk_none domain release c (hv c (List.mem_cons_self c rest))).2.2.1

/-- Keys survive an insert. -/
theorem mem_keys_dictInsert (m : List (Str × UpsertRow)) (k k' : Str) (v : UpsertRow)
    (h : k' ∈ m.map Prod.fst) : k' ∈ (dictInsert m k v).map Prod.fst := by
  by_cases hp : m.any (fun p => decide (p.1 = k)) = true
  · rw [dictInsert_keys_present m k v hp]; exact h
  · rw [dictInsert_keys_absent m k v hp]; exact List.mem_append_left _ h

/-- The inserted key is present afterwards. -/
theorem mem_keys_dictInsert_self (m : List (Str × UpsertRow)) (k : Str) (v : UpsertRow) :
    k ∈ (dictInsert m k v).map Prod.fst := by
  by_cases hp : m.any (fun p => decide (p.1 = k)) = true
  · rw [dictInsert_keys_present m k v hp]
    exact (dict_any_iff m k).1 hp
  · rw [dictInsert_keys_absent m k v hp]
    exact List.mem_append_right _ (List.mem_singleton_self k)

/-- Keys survive the whole merge loop. -/
theorem mem_keys_foldl (domain release : Str) :
    ∀ (chunks : List PyChunk) (m : List (Str × UpsertRow)) (k : Str),
      k ∈ m.map Prod.fst →
      k ∈ (chunks.foldl (upsertStep domain release) m).map Prod.fst
  | [], _, _, h => h
  | c :: rest, m, k, h => by
    rw [List.foldl_cons]
    exact mem_keys_foldl domain release rest _ k (mem_keys_dictInsert m _ k _ h)

/-- Every merged chunk's key ends up in the dict. -/
theorem chunk_key_mem_foldl (domain release : Str) :
    ∀ (chunks : List PyChunk) (m : List (Str × UpsertRow)) (ch : PyChunk),
      ch ∈ chunks →
      pyStr ch.chunk_id ∈ (chunks.foldl (upsertStep domain release) m).map Prod.fst
  | [], _, ch, hch => by simp at hch
  | c :: rest, m, ch, hch => by
    rw [List.foldl_cons]
    rcases List.mem_cons.1 hch with rfl | hmem
    · exact mem_keys_foldl domain release rest _ _ (mem_keys_dictInsert_self m _ _)
    · exact chunk_key_mem_foldl domain release rest _ ch hmem

/-- When every merged key is already present, the key list is unchanged. -/
theorem foldl_keys_eq (domain release : Str) :
    ∀ (chunks : List PyChunk) (m : List (Str × UpsertRow)),
      (∀ ch ∈ chunks, pyStr ch.chunk_id ∈ m.map Prod.fst) →
      (chunks.foldl (upsertStep domain release) m).map Prod.fst = m.map Prod.fst
  | [], _, _ => rfl
  | c :: rest, m, h => by
    rw [List.foldl_cons]
    have hc := h c (List.mem_cons_self c rest)
    have hpres : m.any (fun p => decide (p.1 = pyStr c.chunk_id)) = true :=
      (dict_any_iff m _).2 hc
    have hkeys : (upsertStep domain release m c).map Prod.fst = m.map Prod.fst :=
      dictInsert_keys_present m _ _ hpres
    rw [foldl_keys_eq domain release rest _ ?_, hkeys]
    intro ch hch
    rw [hkeys]
    exact h ch (List.mem_cons_of_mem c hch)

/-- The last chunk in the list carrying a given `chunk_id` (the one whose row
wins the overwrite). -/
def lastWith (k : Str) : List PyChunk → Option PyChunk
  | [] => none
  | ch :: rest =>
    match lastWith k rest with
    | some ch' => some ch'
    | none => if pyStr ch.chunk_id = k then some ch else none

/-- Unfolding equation for `lastWith` on a cons cell. -/
theorem lastWith_cons (k : Str) (c : PyChunk) (rest : List PyChunk) :
    lastWith k (c :: rest) = (match lastWith k rest with
      | some ch' => some ch'
      | none => if pyStr c.chunk_id = k then some c else none) := rfl

/-- `lastWith` returns a member chunk with the requested id. -/
theorem lastWith_mem (k : Str) :
    ∀ (chunks : List PyChunk) (ch : PyChunk), lastWith k chunks = some ch →
      ch ∈ chunks ∧ pyStr ch.chunk_id = k
  | [], ch, h => by simp [lastWith] at h
  | c :: rest, ch, h => by
    rw [lastWith_cons] at h
    cases hrest : lastWith k rest with
    | some ch' =>
      rw [hrest] at h
      rcases Option.some.inj h with rfl
      obtain ⟨hmem, hk⟩ := lastWith_mem k rest _ hrest
      exact ⟨List.mem_cons_of_mem c hmem, hk⟩
    | none =>
      rw [hrest] at h
      by_cases hc : pyStr c.chunk_id = k
      · rw [if_pos hc] at h
        simp only at h
        rcases Option.some.inj h with rfl
        exact ⟨List.mem_cons_self c rest, hc⟩
      · rw [if_neg hc] at h
        exact absurd h (by simp)

/-- A chunk with the requested id forces `lastWith` to find something. -/
theorem lastWith_ne_none (k : Str) :
    ∀ (chunks : List PyChunk) (ch : PyChunk), ch ∈ chunks →
      pyStr ch.chunk_id = k → lastWith k chunks ≠ none
  | [], ch, hch, _ => by simp at hch
  | c :: rest, ch, hch, hk => by
    rw [lastWith_cons]
    cases hrest : lastWith k rest with
    | some ch' => simp
    | none =>
      rcases List.mem_cons.1 hch with rfl | hmem
      · rw [if_pos hk]
        simp
      · exact absurd hrest (lastWith_ne_none k rest ch hmem hk)

/-- Central lookup lemma: after the merge loop, a key maps to the row of the
last input chunk with that id, or to its pre-existing row. -/
theorem foldl_dictGet (domain release : Str) :
    ∀ (chunks : List PyChunk) (m : List (Str × UpsertRow)) (k : Str),
      dictGet (chunks.foldl (upsertStep domain release) m) k =
        match lastWith k chunks with
        | some ch => some (rowOfChunk domain release ch)
        | none => dictGet m k
  | [], m, k => by simp [lastWith]
  | c :: rest, m, k => by
    rw [List.foldl_cons]
    rw [foldl_dictGet domain release rest _ k]
    rw [lastWith_cons]
    cases hrest : lastWith k rest with
    | some ch' => rfl
    | none =>
      show dictGet (upsertStep domain release m c) k = _
      unfold upsertStep
      rw [dictGet_insert]
      by_cases hc : pyStr c.chunk_id = k
      · rw [if_pos hc, if_pos hc.symm]
      · rw [if_neg hc, if_neg (fun h' => hc h'.symm)]

/-- The merged dict produced by a successful `upsert` (existing rows keyed by
`chunk_id`, then each chunk's row written over them). -/
def mergedOf (domain release : Str) (existing : Option (List UpsertRow))
    (chunks : List PyChunk) : List (Str × UpsertRow) :=
  chunks.foldl (upsertStep domain release) (readIndexRows (existing.getD []))

/-- Destructuring a successful `upsert`: the guards passed, validation
passed, and the output is the sorted merged dict's rows. -/
theorem upsert_ok_dest (domain release : Str) (existing : Option (List UpsertRow))
    (chunks : List PyChunk) (out : List UpsertRow)
    (h : upsert domain release existing chunks = .ok out) :
    domain ≠ [] ∧ release ≠ [] ∧ validateChunks domain release chunks = none ∧
      out = ((mergedOf domain release existing chunks).insertionSort rowLe).map Prod.snd := by
  unfold upsert at h
  by_cases h1 : domain = []
  · rw [if_pos h1] at h; exact absurd h (by simp)
  · rw [if_neg h1] at h
    by_cases h2 : release = []
    · rw [if_pos h2] at h; exact absurd h (by simp)
    · rw [if_neg h2] at h
      cases hval : validateChunks domain release chunks with
      | some e => rw [hval] at h; exact absurd h (by simp)
      | none =>
        rw [hval] at h
        refine ⟨h1, h2, rfl, ?_⟩
        cases existing with
        | none => exact (Except.ok.inj h).symm
        | some rows => exact (Except.ok.inj h).symm

/-- Facts about the rows written by a successful `upsert`. -/
theorem upsert_out_facts (domain release : Str) (existing : Option (List UpsertRow))
    (chunks : List PyChunk) (out : List UpsertRow)
    (h : upsert domain release existing chunks = .ok out) :
    GoodMap (mergedOf domain release existing chunks) ∧
    out.map (fun r => (r.chunk_id, r)) =
      (mergedOf domain release existing chunks).insertionSort rowLe ∧
    List.Pairwise (· < ·) (out.map (fun r => r.chunk_id)) ∧
    (∀ r ∈ out, r.chunk_id ≠ []) ∧
    (∀ ch ∈ chunks, ∃ r ∈ out, r.chunk_id = pyStr ch.chunk_id) ∧
    (∀ r ∈ out, dictGet (mergedOf domain release existing chunks) r.chunk_id = some r) := by
  obtain ⟨h1, h2, hval, hout⟩ := upsert_ok_dest domain release existing chunks out h
  have hG : GoodMap (mergedOf domain release existing chunks) := by
    unfold mergedOf
    exact goodMap_foldl domain release chunks _
      (validateChunks_none domain release chunks hval) (goodMap_readIndexRows _)
  have hperm : ((mergedOf domain release existing chunks).insertionSort rowLe).Perm
      (mergedOf domain release existing chunks) :=
    List.perm_insertionSort rowLe _
  have hsorted : List.Pairwise rowLe
      ((mergedOf domain release existing chunks).insertionSort rowLe) :=
    List.sorted_insertionSort rowLe _
  have hvalS : ∀ p ∈ (mergedOf domain release existing chunks).insertionSort rowLe,
      p.2.chunk_id = p.1 := fun p hp => hG.2.1 p (hperm.subset hp)
  have hneS : ∀ p ∈ (mergedOf domain release existing chunks).insertionSort rowLe,
      p.1 ≠ [] := fun p hp => hG.2.2 p (hperm.subset hp)
  have hmapPair : out.map (fun r => (r.chunk_id, r)) =
      (mergedOf domain release existing chunks).insertionSort rowLe := by
    rw [hout, List.map_map]
    calc ((mergedOf domain release existing chunks).insertionSort rowLe).map
          ((fun r => (r.chunk_id, r)) ∘ Prod.snd)
        = ((mergedOf domain release existing chunks).insertionSort rowLe).map id := by
          refine List.map_congr_left ?_
          intro p hp
          have hpv := hvalS p hp
          cases p with
          | mk a b =>
            simp only [Function.comp_apply, id]
            rw [show b.chunk_id = a from hpv]
      _ = _ := List.map_id _
  have hids : out.map (fun r => r.chunk_id) =
      ((mergedOf domain release existing chunks).insertionSort rowLe).map Prod.fst := by
    rw [hout, List.map_map]
    refine List.map_congr_left ?_
    intro p hp
    exact hvalS p hp
  have hndS : (((mergedOf domain release existing chunks).insertionSort rowLe).map
      Prod.fst).Nodup := ((hperm.map Prod.fst).nodup_iff).2 hG.1
  have hlt : List.Pairwise (· < ·) (out.map (fun r => r.chunk_id)) := by
    rw [hids]
    have hle : (((mergedOf domain release existing chunks).insertionSort rowLe).map
        Prod.fst).Pairwise (· ≤ ·) := by
      rw [List.pairwise_map]
      exact hsorted
    have hand := hle.and hndS
    exact hand.imp (fun hab => lt_of_le_of_ne hab.1 hab.2)
  refine ⟨hG, hmapPair, hlt, ?_, ?_, ?_⟩
  · intro r hr
    rw [hout] at hr
    rcases List.mem_map.1 hr with ⟨p, hp, rfl⟩
    rw [hvalS p hp]
    exact hneS p hp
  · intro ch hch
    have hkey : pyStr ch.chunk_id ∈ (mergedOf domain release existing chunks).map Prod.fst := by
      unfold mergedOf
      exact chunk_key_mem_foldl domain release chunks _ ch hch
    rcases List.mem_map.1 hkey with ⟨p, hp, hpk⟩
    refine ⟨p.2, ?_, ?_⟩
    · rw [hout]
      exact List.mem_map.2 ⟨p, hperm.mem_iff.2 hp, rfl⟩
    · rw [hG.2.1 p hp, hpk]
  · intro r hr
    rw [hout] at hr
    rcases List.mem_map.1 hr with ⟨p, hp, rfl⟩
    rw [hvalS p hp]
    have : (p.1, p.2) ∈ mergedOf domain release existing chunks := by
      simpa using hperm.subset hp
    rw [dictGet_of_mem _ p.1 p.2 hG.1 this]

/-- C5: after every successful upsert the written rows are strictly ordered
by `chunk_id` (hence one row per id), every input chunk's id is present, and
any row whose id occurs among the input chunks is a freshly built input row
(the pre-existing row at that id was overwritten). -/
theorem C5_index_sorted_one_row_per_id_overwrite (domain release : Str)
    (existing : Option (List UpsertRow)) (chunks : List PyChunk) (out : List UpsertRow)
    (h : upsert domain release existing chunks = .ok out) :
    List.Chain' (· < ·) (out.map (fun r => r.chunk_id)) ∧
    (∀ ch ∈ chunks, ∃ r ∈ out, r.chunk_id = pyStr ch.chunk_id) ∧
    (∀ r ∈ out, (∃ ch ∈ chunks, pyStr ch.chunk_id = r.chunk_id) →
      ∃ ch ∈ chunks, pyStr ch.chunk_id = r.chunk_id ∧ r = rowOfChunk domain release ch) := by
  obtain ⟨_, _, hlt, _, hcover, hget⟩ := upsert_out_facts domain release existing chunks out h
  refine ⟨hlt.chain', hcover, ?_⟩
  intro r hr hex
  rcases hex with ⟨ch, hch, hkey⟩
  have hg := hget r hr
  unfold mergedOf at hg
  rw [foldl_dictGet domain release chunks _ r.chunk_id] at hg
  cases hlast : lastWith r.chunk_id chunks with
  | none => exact absurd hlast (lastWith_ne_none r.chunk_id chunks ch hch hkey)
  | some ch' =>
    rw [hlast] at hg
    obtain ⟨hmem', hkey'⟩ := lastWith_mem r.chunk_id chunks ch' hlast
    exact ⟨ch', hmem', hkey', (Option.some.inj hg).symm⟩

/-- Existing row used by the C5 witness (chunk_id "b", to be overwritten). -/
def wRowB : UpsertRow :=
  ⟨"b".toList, "d".toList, "r".toList, "old".toList, "file:b.json".toList,
   none, none, none, none, none, none⟩

/-- Fresh chunk "a" used by the C5 witness. -/
def wChunkA : PyChunk :=
  ⟨some "a".toList, some "d".toList, some "r".toList, some "ta".toList,
   some "file:a.json".toList, none, none, none, none, none, none⟩

/-- Chunk "b" used by the C5 witness (overwrites `wRowB`). -/
def wChunkB : PyChunk :=
  ⟨some "b".toList, some "d".toList, some "r".toList, some "tb".toList,
   some "file:b.json".toList, none, none, none, none, none, none⟩

/-- Witness for C5: a concrete upsert over an existing one-row index. -/
theorem C5_index_sorted_one_row_per_id_overwrite_witness :
    List.Chain' (· < ·)
      (([rowOfChunk "d".toList "r".toList wChunkA,
         rowOfChunk "d".toList "r".toList wChunkB]).map (fun r => r.chunk_id)) ∧
    (∀ ch ∈ [wChunkA, wChunkB],
      ∃ r ∈ [rowOfChunk "d".toList "r".toList wChunkA,
             rowOfChunk "d".toList "r".toList wChunkB],
        r.chunk_id = pyStr ch.chunk_id) ∧
    (∀ r ∈ [rowOfChunk "d".toList "r".toList wChunkA,
            rowOfChunk "d".toList "r".toList wChunkB],
      (∃ ch ∈ [wChunkA, wChunkB], pyStr ch.chunk_id = r.chunk_id) →
      ∃ ch ∈ [wChunkA, wChunkB], pyStr ch.chunk_id = r.chunk_id ∧
        r = rowOfChunk "d".toList "r".toList ch) :=
  C5_index_sorted_one_row_per_id_overwrite "d".toList "r".toList (some [wRowB])
    [wChunkA, wChunkB]
    [rowOfChunk "d".toList "r".toList wChunkA,
     rowOfChunk "d".toList "r".toList wChunkB] rfl

/-- A chunk that is out of scope or lacks a required field fails the
per-chunk validation. -/
theorem validateChunk_ne_none_of_bad (domain release : Str) (ch : PyChunk)
    (hbad : (∃ x, ch.domain = some x ∧ x ≠ domain) ∨
      (∃ x, ch.release_id = some x ∧ x ≠ release) ∨
      ch.chunk_id = none ∨ ch.text = none ∨ ch.embedding_ref = none) :
    validateChunk domain release ch ≠ none := by
  intro h
  obtain ⟨hd, hr, hc, ht, he⟩ := validateChunk_none domain release ch h
  rcases hbad with ⟨x, hx, hne⟩ | ⟨x, hx, hne⟩ | hx | hx | hx
  · rw [hx] at hd
    exact hne hd
  · rw [hx] at hr
    exact hne hr
  · rw [hx] at hc
    simp [pyFalsy] at hc
  · rw [hx] at ht
    simp [pyFalsy] at ht
  · rw [hx] at he
    simp [pyFalsy] at he

/-- A failing validation makes the whole `upsert` raise. -/
theorem upsert_isError_of_validate (domain release : Str)
    (existing : Option (List UpsertRow)) (chunks : List PyChunk)
    (h : validateChunks domain release chunks ≠ none) :
    ∃ e, upsert domain release existing chunks = .error e := by
  unfold upsert
  by_cases h1 : domain = []
  · rw [if_pos h1]
    exact ⟨_, rfl⟩
  · rw [if_neg h1]
    by_cases h2 : release = []
    · rw [if_pos h2]
      exact ⟨_, rfl⟩
    · rw [if_neg h2]
      cases hval : validateChunks domain release chunks with
      | none => exact absurd hval h
      | some e => exact ⟨e, rfl⟩

/-- C8: upserting a chunk list containing a chunk whose `domain` differs from
the target (or whose `release_id` differs, or which lacks `chunk_id`, `text`
or `embedding_ref`) raises a validation error. -/
theorem C8_upsert_rejects_bad_chunk (domain release : Str)
    (existing : Option (List UpsertRow)) (chunks : List PyChunk) (ch : PyChunk)
    (hch : ch ∈ chunks)
    (hbad : (∃ x, ch.domain = some x ∧ x ≠ domain) ∨
      (∃ x, ch.release_id = some x ∧ x ≠ release) ∨
      ch.chunk_id = none ∨ ch.text = none ∨ ch.embedding_ref = none) :
    ∃ e, upsert domain release existing chunks = .error e :=
  upsert_isError_of_validate domain release existing chunks
    (validateChunks_some domain release chunks ch hch
      (validateChunk_ne_none_of_bad domain release ch hbad))

/-- Witness for C8: a chunk scoped to domain "x" upserted into domain "d". -/
theorem C8_upsert_rejects_bad_chunk_witness :
    ∃ e, upsert "d".toList "r".toList none
      [⟨some "a".toList, some "x".toList, some "r".toList, some "t".toList,
        some "file:a.json".toList, none, none, none, none, none, none⟩] = .error e :=
  C8_upsert_rejects_bad_chunk "d".toList "r".toList none _ _
    (List.mem_singleton_self _) (Or.inl ⟨"x".toList, rfl, by decide⟩)

/-- C10: when validation fails, `upsert` raises before any write, so the
observable index file (present or absent) is unchanged. -/
theorem C10_upsert_atomic_on_validation_error (domain release : Str)
    (fs : Option (List UpsertRow)) (chunks : List PyChunk) (e : Str)
    (h : validateChunks domain release chunks = some e) :
    runUpsert domain release fs chunks = fs := by
  unfold runUpsert upsert
  by_cases h1 : domain = []
  · rw [if_pos h1]
  · rw [if_neg h1]
    by_cases h2 : release = []
    · rw [if_pos h2]
    · rw [if_neg h2, h]

/-- Witness for C10: a validation failure leaves a one-row index untouched. -/
theorem C10_upsert_atomic_on_validation_error_witness :
    runUpsert "d".toList "r".toList (some [wRowB])
      [⟨some "a".toList, some "x".toList, some "r".toList, some "t".toList,
        some "file:a.json".toList, none, none, none, none, none, none⟩] =
      some [wRowB] :=
  C10_upsert_atomic_on_validation_error "d".toList "r".toList (some [wRowB]) _
    "chunk domain does not match upsert domain".toList rfl

/-- Folding fresh, uniquely-keyed rows into a disjoint dict appends them in
order. -/
theorem readFold_eq : ∀ (rows : List UpsertRow) (m : List (Str × UpsertRow)),
    (∀ r ∈ rows, r.chunk_id ≠ []) →
    (rows.map (fun r => r.chunk_id)).Nodup →
    (∀ r ∈ rows, r.chunk_id ∉ m.map Prod.fst) →
    rows.foldl (fun m r => if r.chunk_id = [] then m else dictInsert m r.chunk_id r) m
      = m ++ rows.map (fun r => (r.chunk_id, r))
  | [], m, _, _, _ => by simp
  | r :: rest, m, hne, hnd, hdisj => by
    rw [List.foldl_cons, if_neg (hne r (List.mem_cons_self r rest))]
    have habsent : ¬ m.any (fun p => decide (p.1 = r.chunk_id)) = true := by
      intro hc
      exact hdisj r (List.mem_cons_self r rest) ((dict_any_iff m _).1 hc)
    have hins : dictInsert m r.chunk_id r = m ++ [(r.chunk_id, r)] := by
      unfold dictInsert
      rw [if_neg habsent]
    rw [hins]
    simp only [List.map_cons, List.nodup_cons] at hnd
    rw [readFold_eq rest (m ++ [(r.chunk_id, r)])
      (fun q hq => hne q (List.mem_cons_of_mem r hq)) hnd.2 ?_]
    · simp
    · intro q hq
      rw [List.map_append]
      intro hc
      rcases List.mem_append.1 hc with hc | hc
      · exact hdisj q (List.mem_cons_of_mem r hq) hc
      · simp only [List.map_cons, List.map_nil, List.mem_singleton] at hc
        exact hnd.1 (hc ▸ List.mem_map.2 ⟨q, hq, rfl⟩)

/-- A file of non-empty, uniquely-keyed rows reads back as exactly its pairs
in order. -/
theorem readIndexRows_eq (rows : List UpsertRow)
    (hne : ∀ r ∈ rows, r.chunk_id ≠ [])
    (hnd : (rows.map (fun r => r.chunk_id)).Nodup) :
    readIndexRows rows = rows.map (fun r => (r.chunk_id, r)) := by
  unfold readIndexRows
  rw [readFold_eq rows [] hne hnd (by simp)]
  simp

/-- Extensionality for uniquely-keyed dicts: same key list (in order) and
same lookups give the same dict. -/
theorem assoc_ext : ∀ (m₁ m₂ : List (Str × UpsertRow)),
    m₁.map Prod.fst = m₂.map Prod.fst →
    (m₁.map Prod.fst).Nodup →
    (∀ k, dictGet m₁ k = dictGet m₂ k) → m₁ = m₂
  | [], [], _, _, _ => rfl
  | [], q :: m₂, hk, _, _ => by simp at hk
  | p :: m₁, [], hk, _, _ => by simp at hk
  | p :: m₁, q :: m₂, hk, hnd, hget => by
    simp only [List.map_cons, List.cons.injEq] at hk
    obtain ⟨hpq, htail⟩ := hk
    simp only [List.map_cons, List.nodup_cons] at hnd
    have hvals : p.2 = q.2 := by
      have h1 := hget p.1
      unfold dictGet at h1
      rw [List.find?_cons, List.find?_cons] at h1
      have e1 : (decide (p.1 = p.1)) = true := by simp
      have e2 : (decide (q.1 = p.1)) = true := by simp [hpq]
      rw [e1, e2] at h1
      simpa using h1
    have htails : m₁ = m₂ := by
      refine assoc_ext m₁ m₂ htail hnd.2 ?_
      intro k
      by_cases hkp : k = p.1
      · subst hkp
        rw [dictGet_eq_none m₁ p.1 hnd.1, dictGet_eq_none m₂ p.1 (htail ▸ hnd.1)]
      · have h1 := hget k
        unfold dictGet at h1 ⊢
        rw [List.find?_cons, List.find?_cons] at h1
        have e1 : (decide (p.1 = k)) = false := by
          simp only [decide_eq_false_iff_not]
          exact fun hc => hkp hc.symm
        have e2 : (decide (q.1 = k)) = false := by
          simp only [decide_eq_false_iff_not, ← hpq]
          exact fun hc => hkp hc.symm
        rw [e1, e2] at h1
        exact h1
    cases p with
    | mk a b =>
      cases q with
      | mk c d =>
        simp only at hpq hvals
        rw [hpq, hvals, htails]

/-- C6: upsert is idempotent — re-running the same chunk list on the index
file written by a first successful run writes a byte-identical file (row
lists are identified with the files they serialize to; see the header). -/
theorem C6_upsert_idempotent (domain release : Str)
    (existing : Option (List UpsertRow)) (chunks : List PyChunk) (out : List UpsertRow)
    (h : upsert domain release existing chunks = .ok out) :
    upsert domain release (some out) chunks = .ok out := by
  obtain ⟨h1, h2, hval, hout⟩ := upsert_ok_dest domain release existing chunks out h
  obtain ⟨hG, hmapPair, hlt, hneid, hcover, hget⟩ :=
    upsert_out_facts domain release existing chunks out h
  have hperm : ((mergedOf domain release existing chunks).insertionSort rowLe).Perm
      (mergedOf domain release existing chunks) := List.perm_insertionSort rowLe _
  have hndS : (((mergedOf domain release existing chunks).insertionSort rowLe).map
      Prod.fst).Nodup := ((hperm.map Prod.fst).nodup_iff).2 hG.1
  have hidsOut : out.map (fun r => r.chunk_id) =
      ((mergedOf domain release existing chunks).insertionSort rowLe).map Prod.fst := by
    rw [← hmapPair, List.map_map]
    rfl
  have hndIds : (out.map (fun r => r.chunk_id)).Nodup := by
    rw [hidsOut]
    exact hndS
  have hread : readIndexRows out =
      (mergedOf domain release existing chunks).insertionSort rowLe := by
    rw [readIndexRows_eq out hneid hndIds, hmapPair]
  have hM2 : chunks.foldl (upsertStep domain release) (readIndexRows out) =
      (mergedOf domain release existing chunks).insertionSort rowLe := by
    have hkeysS : ∀ ch ∈ chunks, pyStr ch.chunk_id ∈
        ((mergedOf domain release existing chunks).insertionSort rowLe).map Prod.fst := by
      intro ch hch
      rcases hcover ch hch with ⟨r, hr, hrk⟩
      rw [← hrk, ← hidsOut]
      exact List.mem_map.2 ⟨r, hr, rfl⟩
    have hkeq : (chunks.foldl (upsertStep domain release) (readIndexRows out)).map Prod.fst =
        ((mergedOf domain release existing chunks).insertionSort rowLe).map Prod.fst := by
      rw [hread]
      exact foldl_keys_eq domain release chunks _ hkeysS
    have hgeteq : ∀ k, dictGet (chunks.foldl (upsertStep domain release) (readIndexRows out)) k
        = dictGet ((mergedOf domain release existing chunks).insertionSort rowLe) k := by
      intro k
      rw [foldl_dictGet domain release chunks _ k]
      cases hlast : lastWith k chunks with
      | none => rw [hread]
      | some ch =>
        have hMk : dictGet (mergedOf domain release existing chunks) k =
            some (rowOfChunk domain release ch) := by
          unfold mergedOf
          rw [foldl_dictGet domain release chunks _ k, hlast]
        rw [dictGet_eq_of_perm _ _ hperm hndS k, hMk]
    exact assoc_ext _ _ hkeq (hkeq ▸ hndS) hgeteq
  unfold upsert
  rw [if_neg h1, if_neg h2, hval]
  show Except.ok ((List.insertionSort rowLe
      (chunks.foldl (upsertStep domain release) (readIndexRows out))).map Prod.snd) =
    Except.ok out
  rw [hM2, List.Sorted.insertionSort_eq (List.sorted_insertionSort rowLe _)]
  rw [← hmapPair, List.map_map]
  have : (Prod.snd ∘ fun (r : UpsertRow) => (r.chunk_id, r)) = id := rfl
  rw [this, List.map_id]

/-- Witness for C6: re-running the C5 witness upsert on its own output. -/
theorem C6_upsert_idempotent_witness :
    upsert "d".toList "r".toList
      (some [rowOfChunk "d".toList "r".toList wChunkA,
             rowOfChunk "d".toList "r".toList wChunkB])
      [wChunkA, wChunkB] =
      .ok [rowOfChunk "d".toList "r".toList wChunkA,
           rowOfChunk "d".toList "r".toList wChunkB] :=
  C6_upsert_idempotent "d".toList "r".toList (some [wRowB]) [wChunkA, wChunkB] _ rfl

/-! ## `releases.py`

A domain's on-disk state (`active_release.txt`, `audit.jsonl`) is modelled by
`DomainState`; the wall-clock timestamp of `_utc_now_iso` is passed in. -/

/-- One parsed line of `audit.jsonl` as appended by `promote_release`. -/
structure AuditEvent where
  timestamp : Str
  event : Str
  domain : Str
  release_id : Str
  previous_release_id : Option Str
  actor : Option Str
  reason : Option Str
deriving DecidableEq

/-- The per-domain release state: `active_release.txt` content (`none` = file
absent) and the `audit.jsonl` events in file order. -/
structure DomainState where
  active : Option Str
  audit : List AuditEvent
deriving DecidableEq

/-- `ReleaseManager.get_active_release`: read, strip, `raw or None`
(the `_domain_dir` guard raises on an empty domain). -/
def get_active_release (domain : Str) (st : DomainState) : Except Str (Option Str) :=
  if domain = [] then .error "domain is required".toList
  else match st.active with
    | none => .ok none
    | some raw => .ok (if pyStrip raw = [] then none else some (pyStrip raw))

/-- `ReleaseManager.promote_release`: read the previous active release, guard
`release_id`, write `active_release.txt` with the raw `release_id`, and
append the audit event. -/
def promote_release (domain release : Str) (promoted_by reason : Option Str)
    (now : Str) (st : DomainState) : Except Str (DomainState × AuditEvent) :=
  match get_active_release domain st with
  | .error e => .error e
  | .ok previous =>
    if release = [] then .error "release_id is required".toList
    else
      let ev : AuditEvent :=
        ⟨now, "security_release_promoted".toList, domain, release, previous,
         promoted_by, reason⟩
      .ok (⟨some release, st.audit ++ [ev]⟩, ev)

/-- `ReleaseManager.list_audit`: latest `limit` events, newest first (a
missing audit file reads as no events). -/
def list_audit (domain : Str) (st : DomainState) (limit : Int) :
    Except Str (List AuditEvent) :=
  if domain = [] then .error "domain is required".toList
  else if limit ≤ 0 then .ok []
  else .ok ((st.audit.drop (st.audit.length - limit.toNat)).reverse)

/-- The newest element of the reversed `limit`-suffix of `l ++ [ev]` is `ev`
whenever `limit ≥ 1`. -/
theorem drop_reverse_head (l : List AuditEvent) (ev : AuditEvent) (n : Nat) (hn : 1 ≤ n) :
    (((l ++ [ev]).drop ((l ++ [ev]).length - n)).reverse).head? = some ev := by
  have hlen : (l ++ [ev]).length = l.length + 1 := by simp
  have hle : (l ++ [ev]).length - n ≤ l.length := by omega
  rw [List.drop_append_of_le_length hle, List.reverse_append]
  simp

/-- C9, counterexample: promoting release `" a "` (non-empty, whitespace-
padded) succeeds, but `get_active_release` then returns the stripped `"a"`,
not `" a "` as the claim states. -/
theorem C9_counterexample :
    promote_release "d".toList " a ".toList none none "t0".toList ⟨none, []⟩ =
      .ok (⟨some " a ".toList,
            [⟨"t0".toList, "security_release_promoted".toList, "d".toList,
              " a ".toList, none, none, none⟩]⟩,
           ⟨"t0".toList, "security_release_promoted".toList, "d".toList,
            " a ".toList, none, none, none⟩) ∧
    get_active_release "d".toList
      ⟨some " a ".toList,
       [⟨"t0".toList, "security_release_promoted".toList, "d".toList,
         " a ".toList, none, none, none⟩]⟩ = .ok (some "a".toList) ∧
    some "a".toList ≠ some " a ".toList := by
  refine ⟨rfl, rfl, ?_⟩
  decide

/-- C9 (amended): for every domain and release id equal to its own strip
(non-empty, no surrounding whitespace), after a successful
`promote_release(d, r)` the active release reads back as `r` and the newest
event of `list_audit(d)` (default limit 100) is the promotion event, whose
`release_id` is `r`. For a whitespace-padded id the read-back is the
stripped id instead. -/
theorem C9_promote_active_audit_amended (domain release : Str)
    (promoted_by reason : Option Str) (now : Str) (st st' : DomainState)
    (ev : AuditEvent) (hstrip : pyStrip release = release)
    (h : promote_release domain release promoted_by reason now st = .ok (st', ev)) :
    get_active_release domain st' = .ok (some release) ∧
    ∃ evs, list_audit domain st' 100 = .ok evs ∧ evs.head? = some ev ∧
      ev.release_id = release := by
  unfold promote_release at h
  split at h
  next e heq => exact absurd h (by simp)
  next previous heq =>
    by_cases hrel : release = []
    · rw [if_pos hrel] at h
      exact absurd h (by simp)
    · rw [if_neg hrel] at h
      have hdom : domain ≠ [] := by
        intro hc
        unfold get_active_release at heq
        rw [if_pos hc] at heq
        exact absurd heq (by simp)
      obtain ⟨hst, hev⟩ := Prod.mk.injEq .. ▸ Except.ok.inj h
      refine ⟨?_, ?_⟩
      · rw [← hst]
        unfold get_active_release
        rw [if_neg hdom]
        simp only
        rw [hstrip, if_neg hrel]
      · refine ⟨((st.audit ++ [ev]).drop ((st.audit ++ [ev]).length - 100)).reverse,
          ?_, ?_, ?_⟩
        · rw [← hst, ← hev]
          unfold list_audit
          rw [if_neg hdom, if_neg (by norm_num)]
          rfl
        · exact drop_reverse_head st.audit ev 100 (by norm_num)
        · rw [← hev]

/-- Witness for C9's amended theorem at a concrete promotion. -/
theorem C9_promote_active_audit_amended_witness :
    get_active_release "d".toList
      ⟨some "r1".toList,
       [⟨"t0".toList, "security_release_promoted".toList, "d".toList,
         "r1".toList, none, none, none⟩]⟩ = .ok (some "r1".toList) ∧
    ∃ evs, list_audit "d".toList
      ⟨some "r1".toList,
       [⟨"t0".toList, "security_release_promoted".toList, "d".toList,
         "r1".toList, none, none, none⟩]⟩ 100 = .ok evs ∧
      evs.head? = some ⟨"t0".toList, "security_release_promoted".toList,
        "d".toList, "r1".toList, none, none, none⟩ ∧
      (⟨"t0".toList, "security_release_promoted".toList, "d".toList,
        "r1".toList, none, none, none⟩ : AuditEvent).release_id = "r1".toList :=
  C9_promote_active_audit_amended "d".toList "r1".toList none none "t0".toList
    ⟨none, []⟩ _ _ (by decide) rfl

/-! ## `vector_store.py` — query side, and `retrieval_service.py`

Cosine scoring (`_cosine`, built on IEEE floats and `math.sqrt`) and the
embedding files read by `_load_vector_from_embedding_ref` are external
inputs; they are passed in as `score` and `readEmb`. No theorem below
depends on their values. -/

/-- A `filters` dict (each `_FILTER_KEYS` entry optional). -/
structure Filters where
  concept_id : Option Str
  level : Option Str
  graph_id : Option Str
  graph_version : Option Str
  dataset_version : Option Str
  index_version : Option Str

/-- `_opt_filter_value` on one key, then the row comparison of
`_matches_filters`. -/
def filterKeyOk (required : Option Str) (actual : Option Str) : Bool :=
  match optStrField required with
  | none => true
  | some req =>
    match actual with
    | none => false
    | some a => a = req

/-- `_matches_filters` (absent/empty filters accept everything). -/
def matchesFilters (row : UpsertRow) (filters : Option Filters) : Bool :=
  match filters with
  | none => true
  | some f =>
    filterKeyOk f.concept_id row.concept_id &&
    filterKeyOk f.level row.level &&
    filterKeyOk f.graph_id row.graph_id &&
    filterKeyOk f.graph_version row.graph_version &&
    filterKeyOk f.dataset_version row.dataset_version &&
    filterKeyOk f.index_version row.index_version

/-- `_load_vector_from_embedding_ref`: empty ref and unknown providers give
`[]`; a `file:` ref reads the payload's vector (`readEmb`). -/
def load_vector_from_embedding_ref (readEmb : Str → List ℚ) (ref : Str) : List ℚ :=
  if ref = [] then []
  else if startsWithStr ref "file:".toList then readEmb (ref.drop 5)
  else []

/-- An output row of `LocalJsonlVectorStore.query` / `InMemoryVectorIndex.query`. -/
structure OutRow where
  chunk_id : Str
  domain : Str
  release_id : Str
  text : Str
  embedding_ref : Str
  score : ℚ
  concept_id : Option Str
  level : Option Str
  graph_id : Option Str
  graph_version : Option Str
  dataset_version : Option Str
  index_version : Option Str

/-- The output row built from a scored candidate. -/
def outRowOf (score : ℚ) (r : UpsertRow) : OutRow :=
  ⟨r.chunk_id, r.domain, r.release_id, r.text, r.embedding_ref, score,
   r.concept_id, r.level, r.graph_id, r.graph_version, r.dataset_version,
   r.index_version⟩

/-- The sort key `(-score, chunk_id)` of the candidate sort, as a total
preorder (highest score first, ties broken by ascending `chunk_id`; the
stable `insertionSort` mirrors Python's stable sort). -/
def candLe (a b : ℚ × UpsertRow) : Prop :=
  b.1 < a.1 ∨ (a.1 = b.1 ∧ a.2.chunk_id ≤ b.2.chunk_id)

instance : DecidableRel candLe := fun a b =>
  inferInstanceAs (Decidable (b.1 < a.1 ∨ (a.1 = b.1 ∧ a.2.chunk_id ≤ b.2.chunk_id)))

/-- `LocalJsonlVectorStore.query` (`index = none` models a missing
`index.jsonl`). -/
def store_query (score : List ℚ → List ℚ → ℚ) (readEmb : Str → List ℚ)
    (domain release : Str) (index : Option (List UpsertRow))
    (query_vector : List ℚ) (filters : Option Filters) (top_k : Int) :
    Except Str (List OutRow) :=
  if domain = [] then .error "domain is required".toList
  else if release = [] then .error "release_id is required".toList
  else if top_k ≤ 0 then .ok []
  else
    match index with
    | none => .ok []
    | some rows =>
      let candidates := (rows.filter (fun r => matchesFilters r filters)).map
        (fun r => (score query_vector
          (load_vector_from_embedding_ref readEmb r.embedding_ref), r))
      let sorted := candidates.insertionSort candLe
      .ok ((sorted.take top_k.toNat).map (fun p => outRowOf p.1 p.2))

/-- An item of the in-memory accelerator (an index row with its vector
preloaded). -/
structure InMemoryItem where
  chunk_id : Str
  domain : Str
  release_id : Str
  text : Str
  embedding_ref : Str
  vector : List ℚ
  concept_id : Option Str
  level : Option Str
  graph_id : Option Str
  graph_version : Option Str
  dataset_version : Option Str
  index_version : Option Str

/-- `vector_store.InMemoryVectorIndex`. -/
structure InMemoryVectorIndex where
  domain : Str
  release_id : Str
  items : List InMemoryItem

/-- The item the loader's loop builds from one index row. -/
def itemOfRow (readEmb : Str → List ℚ) (r : UpsertRow) : InMemoryItem :=
  ⟨r.chunk_id, r.domain, r.release_id, r.text, r.embedding_ref,
   load_vector_from_embedding_ref readEmb r.embedding_ref,
   r.concept_id, r.level, r.graph_id, r.graph_version, r.dataset_version,
   r.index_version⟩

/-- `InMemoryVectorIndex.query` (same ranking contract as the store). -/
def in_memory_query (score : List ℚ → List ℚ → ℚ) (idx : InMemoryVectorIndex)
    (query_vector : List ℚ) (filters : Option Filters) (top_k : Int) : List OutRow :=
  if top_k ≤ 0 then []
  else
    let candidates := (idx.items.filter (fun it =>
      matchesFilters ⟨it.chunk_id, it.domain, it.release_id, it.text,
        it.embedding_ref, it.concept_id, it.level, it.graph_id,
        it.graph_version, it.dataset_version, it.index_version⟩ filters)).map
      (fun it => (score query_vector it.vector,
        (⟨it.chunk_id, it.domain, it.release_id, it.text, it.embedding_ref,
          it.concept_id, it.level, it.graph_id, it.graph_version,
          it.dataset_version, it.index_version⟩ : UpsertRow)))
    let sorted := candidates.insertionSort candLe
    (sorted.take top_k.toNat).map (fun p => outRowOf p.1 p.2)

/-- `vector_store.load_in_memory_index`. When `index.jsonl` is missing the
source returns an empty `InMemoryVectorIndex`; when it exists, the loop at
lines 299-319 builds `items` — and the function then ends WITHOUT a `return`
statement (the file stops at `items.append(it)`), so Python returns `None`,
contradicting the `-> InMemoryVectorIndex` annotation and the docstring. -/
def load_in_memory_index (readEmb : Str → List ℚ) (domain release : Str)
    (index : Option (List UpsertRow)) : Except Str (Option InMemoryVectorIndex) :=
  if domain = [] then .error "domain is required".toList
  else if release = [] then .error "release_id is required".toList
  else
    match index with
    | none => .ok (some ⟨domain, release, []⟩)
    | some rows =>
      let _items := rows.map (itemOfRow readEmb)
      .ok none

/-- C3: the offline loader never returns the in-memory index when the index
file exists — the missing `return` makes it fall off the end and return
`None` (here at a one-row index); the claim (and the function's own
annotation and docstring) says an index with one item per row is returned. -/
theorem C3_loader_missing_return_bug :
    load_in_memory_index (fun _ => [(1 : ℚ)]) "d".toList "r".toList
      (some [wRowB]) = .ok none := rfl

/-- `env.get_retrieval_embed_provider`: an explicit `RETRIEVAL_EMBED_PROVIDER`
wins; else `ollama` when `OLLAMA_EMBED_MODEL` is set and not the literal
`deterministic`; else `deterministic`. -/
def get_retrieval_embed_provider (retrievalProviderEnv ollamaModelEnv : Option Str) : Str :=
  let raw := pyLower (pyStrip (envStr retrievalProviderEnv))
  if raw ≠ [] then raw
  else
    let model := pyLower (pyStrip (envStr ollamaModelEnv))
    if model ≠ [] ∧ model ≠ "deterministic".toList then "ollama".toList
    else "deterministic".toList

/-- `retrieval_service._trim_query` (the max length comes from
`get_retrieval_embed_max_chars`, passed in). -/
def trim_query (maxChars : Nat) (text : Str) : Str :=
  let trimmed := pyStrip text
  if trimmed.length > maxChars then trimmed.take maxChars else trimmed

/-- `retrieval_service._resolve_release_id`: an explicitly given (truthy)
release id wins, otherwise the domain's active release; no active release
raises FileNotFoundError. -/
def resolve_release_id (domain : Str) (rm : DomainState) (release_id : Option Str) :
    Except Str Str :=
  let useActive : Except Str Str :=
    match get_active_release domain rm with
    | .error e => .error e
    | .ok none => .error "No active release set for domain".toList
    | .ok (some a) => .ok a
  match release_id with
  | some r => if r ≠ [] then .ok r else useActive
  | none => useActive

/-- The provider-mismatch warning string of `RetrievalService.query`. -/
def mismatchWarning (ing ret : Str) : Str :=
  "Embedding provider mismatch: ingestion uses ".toList ++ ing ++
    ", retrieval uses ".toList ++ ret ++
    ". Set RETRIEVAL_EMBED_PROVIDER to match ingestion.".toList

/-- The response dict of `RetrievalService.query`. -/
structure QueryResponse where
  domain : Str
  release_id : Str
  results : List OutRow
  warnings : List Str

/-- `RetrievalService.query`. The embedder is the already-built provider
(`embed_texts([q])[0]` becomes `embedder q`); note `top_k=int(top_k or 5)`
turns the falsy `0` into the default `5`. -/
def retrieval_service_query (score : List ℚ → List ℚ → ℚ) (readEmb : Str → List ℚ)
    (embedder : Str → List ℚ) (maxChars : Nat)
    (retrievalProviderEnv ollamaModelEnv : Option Str)
    (rm : DomainState) (index : Option (List UpsertRow))
    (domain q : Str) (filters : Option Filters) (top_k : Int)
    (release_id : Option Str) : Except Str QueryResponse :=
  if pyStrip domain = [] then .error "domain is required".toList
  else if pyStrip q = [] then .error "query is required".toList
  else
    match resolve_release_id domain rm release_id with
    | .error e => .error e
    | .ok resolved =>
      let query_text := trim_query maxChars q
      if query_text = [] then .error "query is required".toList
      else
        let vec := embedder query_text
        match store_query score readEmb domain resolved index vec filters
          (if top_k = 0 then 5 else top_k) with
        | .error e => .error e
        | .ok results =>
          let ing := get_ingestion_embed_provider ollamaModelEnv
          let ret := get_retrieval_embed_provider retrievalProviderEnv ollamaModelEnv
          let warnings := if ing ≠ ret then [mismatchWarning ing ret] else []
          .ok ⟨domain, resolved, results, warnings⟩

/-- C4, counterexample: a retrieval-service query with `top_k == 0` against a
one-row index returns one result, not the empty list — `int(top_k or 5)`
coerces the falsy `0` to the default `5`. -/
theorem C4_counterexample :
    retrieval_service_query (fun _ _ => 0) (fun _ => []) (fun _ => [(1 : ℚ)])
      2000 none (some "deterministic".toList) ⟨some "r".toList, []⟩
      (some [wRowB]) "d".toList "q".toList none 0 none =
      .ok ⟨"d".toList, "r".toList, [outRowOf 0 wRowB], []⟩ ∧
    ([outRowOf 0 wRowB] : List OutRow) ≠ [] := by
  refine ⟨rfl, ?_⟩
  simp

/-- C4 (amended): the vector index query returns the empty list for every
`top_k ≤ 0`; the retrieval service, however, coerces `top_k == 0` (falsy) to
the default `5`, so a service query with `top_k == 0` behaves exactly like
one with `top_k == 5` and can return results. -/
theorem C4_topk_amended :
    (∀ (score : List ℚ → List ℚ → ℚ) (readEmb : Str → List ℚ) (domain release : Str)
      (index : Option (List UpsertRow)) (qv : List ℚ) (filters : Option Filters)
      (top_k : Int), domain ≠ [] → release ≠ [] → top_k ≤ 0 →
      store_query score readEmb domain release index qv filters top_k = .ok []) ∧
    (∀ (score : List ℚ → List ℚ → ℚ) (readEmb : Str → List ℚ)
      (embedder : Str → List ℚ) (maxChars : Nat)
      (rpe ome : Option Str) (rm : DomainState) (index : Option (List UpsertRow))
      (domain q : Str) (filters : Option Filters) (release_id : Option Str),
      retrieval_service_query score readEmb embedder maxChars rpe ome rm index
          domain q filters 0 release_id =
        retrieval_service_query score readEmb embedder maxChars rpe ome rm index
          domain q filters 5 release_id) := by
  constructor
  · intro score readEmb domain release index qv filters top_k h1 h2 h3
    unfold store_query
    rw [if_neg h1, if_neg h2, if_pos h3]
  · intro score readEmb embedder maxChars rpe ome rm index domain q filters release_id
    rfl

/-- Witness for C4's amended theorem: the store at `top_k = 0`, and the
service coercion at the counterexample's inputs. -/
theorem C4_topk_amended_witness :
    store_query (fun _ _ => 0) (fun _ => []) "d".toList "r".toList
      (some [wRowB]) [(1 : ℚ)] none 0 = .ok [] ∧
    retrieval_service_query (fun _ _ => 0) (fun _ => []) (fun _ => [(1 : ℚ)])
      2000 none (some "deterministic".toList) ⟨some "r".toList, []⟩
      (some [wRowB]) "d".toList "q".toList none 0 none =
    retrieval_service_query (fun _ _ => 0) (fun _ => []) (fun _ => [(1 : ℚ)])
      2000 none (some "deterministic".toList) ⟨some "r".toList, []⟩
      (some [wRowB]) "d".toList "q".toList none 5 none :=
  ⟨C4_topk_amended.1 (fun _ _ => 0) (fun _ => []) "d".toList "r".toList
      (some [wRowB]) [(1 : ℚ)] none 0 (by decide) (by decide) (by decide),
   C4_topk_amended.2 (fun _ _ => 0) (fun _ => []) (fun _ => [(1 : ℚ)])
      2000 none (some "deterministic".toList) ⟨some "r".toList, []⟩
      (some [wRowB]) "d".toList "q".toList none none⟩
